import Mathlib

/-!
# list-files: breadth-first listing of a directory tree

A shallow embedding of `src/list-files/main.cpp` and the properties of its
traversal, of the libgit2-backed predicate and of the path printer.

The filesystem is a finite tree of `Node`s. A `fs::path` is the sequence of its
components, so the path of a directory entry is the path of the directory
followed by the entry's name. The frontier holds each path together with the
node the filesystem has at that path; the queries `fs::is_symlink`,
`fs::is_directory` and `fs::directory_iterator` of the source are answered from
that node. Functions of `std::filesystem` and of libgit2 whose results depend on
the process environment (`canonical`, `absolute`, `proximate`, the repository
lookup and the ignore query) are parameters, collected in `Env`.

The filesystem does not change during a run and listing a directory does not
fail; `fs::absolute` and `fs::proximate` return. An exception is either thrown
by `fs::canonical` or is one of the two `std::runtime_error`s of the source.
-/

namespace list_files

/-! ## Data model -/

/-- A `fs::path`, as the sequence of its components. -/
abbrev Path := List String

/-- What the filesystem holds at a path: a non-directory, non-link entry, a
symbolic link with the node it resolves to (`none` when the target is missing),
or a directory with its entries in the order the listing returns them. -/
inductive Node where
  | file : Node
  | symlink : Option Node → Node
  | dir : List (String × Node) → Node

/-- The exceptions the program raises: `fs::filesystem_error` from
`fs::canonical`, and `std::runtime_error` with its message. -/
inductive Exception where
  | filesystem_error : Exception
  | runtime_error : String → Exception
  deriving DecidableEq, Repr

/-- The libgit2 calls that acquire or release a resource. -/
inductive Call where
  | git_libgit2_init : Call
  | git_repository_open_ext : Int → Call
  | git_repository_free : Call
  | git_libgit2_shutdown : Call
  deriving DecidableEq, Repr

/-- The command line options (`struct Options`). -/
structure Options where
  directory : Path
  files_only : Bool
  use_git_ignore : Bool

/-- Library functions whose result depends on the environment of the process.
`canonical` is `none` where `fs::canonical` throws; `git_repository_open_ext`
gives the error code of opening the repository that encloses a canonical path;
`git_ignore_path_is_ignored repo p` gives the error code and the value stored
in `res`. -/
structure Env where
  canonical : Path → Option Path
  absolute : Path → String
  proximate : Path → String
  git_repository_open_ext : Path → Int
  git_ignore_path_is_ignored : Path → Path → Int × Int

/-- One line written to `std::cout`, with the path it renders. -/
structure Line where
  path : Path
  text : String
  deriving DecidableEq, Repr

/-- The type `FilePredicate`; a call either returns or throws. -/
abbrev FilePredicate := Path → Except Exception Bool

/-- The contents of `std::queue<fs::path>`, front first. -/
abbrev Queue := List (Path × Node)

/-! ## Filesystem queries -/

/-- The query `fs::is_symlink`: does not follow links. -/
def is_symlink : Node → Bool
  | .symlink _ => true
  | _ => false

/-- The query `fs::is_directory`: follows links. -/
def is_directory : Node → Bool
  | .file => false
  | .dir _ => true
  | .symlink none => false
  | .symlink (some t) => is_directory t

/-- The entries `fs::directory_iterator` yields, in listing order; it follows
links, and a non-directory has none. -/
def directory_iterator : Node → List (String × Node)
  | .file => []
  | .dir es => es
  | .symlink none => []
  | .symlink (some t) => directory_iterator t

/-! ## `GitIgnoreFilter` -/

/-- The object `GitIgnoreFilter`: its `repo` handle, named by the canonical
path it was opened from. -/
structure GitIgnoreFilter where
  repo : Path

/-- The constructor of `GitIgnoreFilter`: the libgit2 calls it makes, and the
object or the exception thrown. -/
def GitIgnoreFilter.ctor (env : Env) (path : Path) :
    List Call × Except Exception GitIgnoreFilter :=
  match env.canonical path with
  | none => ([], .error .filesystem_error)
  | some abs =>
    let err := env.git_repository_open_ext abs
    if err ≠ 0 then
      ([.git_libgit2_init, .git_repository_open_ext err],
        .error (.runtime_error "Could not open git repository"))
    else
      ([.git_libgit2_init, .git_repository_open_ext err], .ok ⟨abs⟩)

/-- The destructor of `GitIgnoreFilter`: the libgit2 calls it makes. -/
def GitIgnoreFilter.dtor : List Call :=
  [.git_repository_free, .git_libgit2_shutdown]

/-- The call operator of `GitIgnoreFilter`. -/
def GitIgnoreFilter.call (env : Env) (self : GitIgnoreFilter) (file : Path) :
    Except Exception Bool :=
  match env.canonical file with
  | none => .error .filesystem_error
  | some p =>
    let r := env.git_ignore_path_is_ignored self.repo p
    if r.1 ≠ 0 then .error (.runtime_error "Gitignore check failed")
    else .ok (r.2 == 0)

/-! ## Printing -/

/-- The function `print_path`: the lines it writes for `path`, whose node is
`node`. The size of a `std::string` is its number of bytes. -/
def print_path (env : Env) (path : Path) (node : Node) (options : Options) : List Line :=
  if options.files_only && is_directory node then []
  else
    let prox := env.proximate path
    let abs := env.absolute path
    if abs.utf8ByteSize ≤ prox.utf8ByteSize then [⟨path, abs⟩] else [⟨path, prox⟩]

/-! ## Traversal -/

/-- Size of a node, the termination measure of the traversal. -/
def Node.size : Node → Nat
  | .file => 1
  | .symlink none => 1
  | .symlink (some t) => 1 + t.size
  | .dir [] => 1
  | .dir ((_, c) :: es) => c.size + (Node.dir es).size

/-- Total size of the nodes in the frontier. -/
def weight : Queue → Nat
  | [] => 0
  | (_, n) :: q => n.size + weight q

/-- The `for` loop over a directory listing: each entry the predicate admits is
pushed on the back of the queue; a throwing predicate ends the loop. -/
def push_entries (pred : FilePredicate) (next : Path) :
    List (String × Node) → Queue → Except Exception Queue
  | [], queue => .ok queue
  | (name, child) :: rest, queue =>
    match pred (next ++ [name]) with
    | .error e => .error e
    | .ok true => push_entries pred next rest (queue ++ [(next ++ [name], child)])
    | .ok false => push_entries pred next rest queue

/-- What a run of the loop leaves behind: the values `next` took, in order,
the lines written, and the exception that ended the loop, if any. -/
structure Outcome where
  dequeued : Queue
  stdout : List Line
  exception : Option Exception

/-- The outcome of an iteration that dequeued `x` and wrote `printed`, followed
by the outcome `rest` of the remaining iterations. -/
def Outcome.after (x : Path × Node) (printed : List Line) (rest : Outcome) : Outcome :=
  ⟨x :: rest.dequeued, printed ++ rest.stdout, rest.exception⟩

/-- Total size of the nodes of a listing. -/
def entries_size : List (String × Node) → Nat
  | [] => 0
  | (_, c) :: es => c.size + entries_size es

/-- The `while` loop of `list_files`, from a given frontier. -/
def walk (env : Env) (options : Options) (pred : FilePredicate) : Queue → Outcome
  | [] => ⟨[], [], none⟩
  | (next, node) :: queue =>
    let printed := if next ≠ options.directory then print_path env next node options else []
    if hs : is_symlink node = true then
      (walk env options pred queue).after (next, node) printed
    else if is_directory node then
      match h : push_entries pred next (directory_iterator node) queue with
      | .error e => ⟨[(next, node)], printed, some e⟩
      | .ok queue' => (walk env options pred queue').after (next, node) printed
    else
      (walk env options pred queue).after (next, node) printed
termination_by q => weight q
decreasing_by
  all_goals
    have pos : ∀ n : Node, 0 < n.size := by
      intro n
      cases n with
      | file => simp [Node.size]
      | symlink t => cases t <;> simp [Node.size]
      | dir es =>
        induction es with
        | nil => simp [Node.size]
        | cons e es ih => obtain ⟨s, c⟩ := e; simp [Node.size]; omega
  · simp [weight]; exact pos _
  · have happ : ∀ a b : Queue, weight (a ++ b) = weight a + weight b := by
      intro a b
      induction a with
      | nil => simp [weight]
      | cons x a ih => obtain ⟨p, n⟩ := x; simp [weight, ih]; omega
    have hdir : ∀ es : List (String × Node), (Node.dir es).size = 1 + entries_size es := by
      intro es
      induction es with
      | nil => simp [Node.size, entries_size]
      | cons e es ih => obtain ⟨s, c⟩ := e; simp [Node.size, entries_size, ih]; omega
    have hpush : ∀ (p : Path) (es : List (String × Node)) (q q' : Queue),
        push_entries pred p es q = .ok q' → weight q' ≤ weight q + entries_size es := by
      intro p es
      induction es with
      | nil => intro q q' h; simp [push_entries] at h; subst h; simp
      | cons e es ih =>
        obtain ⟨name, child⟩ := e
        intro q q' h
        simp only [push_entries] at h
        split at h
        · simp at h
        · have := ih _ _ h
          simp [happ, weight, entries_size] at this ⊢
          omega
        · have := ih _ _ h
          simp [entries_size]; omega
    have hlist : ∀ n : Node, ¬ is_symlink n = true →
        entries_size (directory_iterator n) < n.size := by
      intro n hn
      cases n with
      | file => simp [directory_iterator, entries_size, Node.size]
      | symlink t => simp [is_symlink] at hn
      | dir es => simp [directory_iterator, hdir]
    have h1 := hpush _ _ _ _ h
    have h2 := hlist _ hs
    simp [weight]; omega
  · simp [weight]; exact pos _

/-- The predicate `list_files` starts from. -/
def always_true : FilePredicate := fun _ => .ok true

/-- The block of `list_files` that builds the filter when `use_git_ignore` is
set, swallowing what the constructor throws: the libgit2 calls made, and the
filter if it was built. -/
def make_filter (env : Env) (options : Options) : List Call × Option GitIgnoreFilter :=
  if options.use_git_ignore then
    match GitIgnoreFilter.ctor env options.directory with
    | (calls, .ok gitignore) => (calls, some gitignore)
    | (calls, .error _) => (calls, none)
  else ([], none)

/-- The predicate `pred` holds after that block. -/
def active_predicate (env : Env) (options : Options) : FilePredicate :=
  match (make_filter env options).2 with
  | some gitignore => gitignore.call env
  | none => always_true

/-- The rest of `list_files`, from the test of the root on, for the predicate
`pred` and the node `tree` at `options.directory`. -/
def traverse (env : Env) (options : Options) (pred : FilePredicate) (tree : Node) : Outcome :=
  match pred options.directory with
  | .error e => ⟨[], [], some e⟩
  | .ok false => ⟨[], [], none⟩
  | .ok true => walk env options pred [(options.directory, tree)]

/-- A run of `list_files`: the outcome of the traversal and the libgit2 calls
made, the destructor of the filter included. -/
structure Run extends Outcome where
  calls : List Call

/-- The function `list_files`, on the tree `tree` at `options.directory`. The
filter, if built, is destroyed when the function is left, by a return or by the
unwinding of an exception. -/
def list_files (env : Env) (options : Options) (tree : Node) : Run :=
  let built := make_filter env options
  let cleanup := match built.2 with
    | some _ => GitIgnoreFilter.dtor
    | none => []
  { toOutcome := traverse env options (active_predicate env options) tree
    calls := built.1 ++ cleanup }

/-! ## Notions the properties are stated with -/

/-- What one iteration of the loop writes for the entry it dequeued. -/
def emit (env : Env) (options : Options) (x : Path × Node) : List Line :=
  if x.1 ≠ options.directory then print_path env x.1 x.2 options else []

/-- Whether `pred` returns `true` on a path. -/
def admits (pred : FilePredicate) (p : Path) : Bool :=
  match pred p with
  | .ok true => true
  | _ => false

/-- The entries of a listing of the directory `next` that `pred` admits, with
their paths, in listing order. -/
def admitted (pred : FilePredicate) (next : Path) (es : List (String × Node)) : Queue :=
  (es.filter (fun e => admits pred (next ++ [e.1]))).map (fun e => (next ++ [e.1], e.2))

/-- The admitted entries found when expanding `x`: none for a symbolic link and
for a non-directory, the admitted entries of its listing for a directory. -/
def children (pred : FilePredicate) (x : Path × Node) : Queue :=
  if is_symlink x.2 then []
  else if is_directory x.2 then admitted pred x.1 (directory_iterator x.2)
  else []

/-- The entries `k` levels below those of `q`, each level listing the children
of the entries of the level above, in order. -/
def level (pred : FilePredicate) : Nat → Queue → Queue
  | 0, q => q
  | k + 1, q => level pred k (q.flatMap (children pred))

/-- The level-order enumeration of the entries below the root: level 1, then
level 2, and so on. -/
def level_order (pred : FilePredicate) (root : Path) (tree : Node) : Queue :=
  (List.range tree.size).flatMap (fun k => level pred (k + 1) [(root, tree)])

/-- Depth of a path below the root. -/
def depth (root p : Path) : Nat := p.length - root.length

/-- In every directory of the tree that is not behind a symbolic link, the
entries have distinct names. -/
def Node.distinct_names : Node → Prop
  | .file => True
  | .symlink _ => True
  | .dir [] => True
  | .dir ((name, c) :: es) =>
    c.distinct_names ∧ name ∉ es.map Prod.fst ∧ (Node.dir es).distinct_names

/-- The node a path relative to `n` resolves to, links followed. -/
def resolve : Node → List String → Option Node
  | n, [] => some n
  | n, name :: rest =>
    match (directory_iterator n).lookup name with
    | some c => resolve c rest
    | none => none

/-- The query `fs::is_directory` on a path at or below the root. -/
def is_directory_at (root : Path) (tree : Node) (p : Path) : Bool :=
  match resolve tree (p.drop root.length) with
  | some n => is_directory n
  | none => false

/-- A predicate that returns on every path. -/
def never_fails (pred : FilePredicate) : Prop := ∀ p, ∃ b, pred p = .ok b

/-- The root is an initial segment of the path of `x`, and the predicate admits
every path from the root to it. -/
def admitted_chain (pred : FilePredicate) (root : Path) (x : Path × Node) : Prop :=
  root <+: x.1 ∧ ∀ P, root <+: P → P <+: x.1 → admits pred P = true

/-- The path of `x` is the root followed by a relative path that resolves to the
node of `x` without passing through a symbolic link, and the directories at and
below `x` have entries with distinct names. -/
def located (root : Path) (tree : Node) (x : Path × Node) : Prop :=
  ∃ rel, x.1 = root ++ rel ∧ resolve tree rel = some x.2 ∧ x.2.distinct_names ∧
    ∀ r1 r2, rel = r1 ++ r2 → r2 ≠ [] → ∃ m, resolve tree r1 = some m ∧ is_symlink m = false

/-! ## Sample inputs -/

/-- A directory with a file, a subdirectory, a link to a directory outside the
tree, a link whose target is missing, and a second subdirectory. -/
def sample_tree : Node :=
  .dir [("a.txt", .file), ("b", .dir [("c.txt", .file)]),
    ("l", .symlink (some (.dir [("x", .file)]))), ("m", .symlink none),
    ("d", .dir [("e", .file)])]

/-- A symbolic link to a directory, as the root of a listing. -/
def sample_link : Node := .symlink (some (.dir [("x", .file)]))

/-- Renderings for a process whose working directory is `/w`. -/
def sample_absolute (p : Path) : String := "/w/" ++ String.intercalate "/" p

/-- An environment with no repository: opening fails with `GIT_ENOTFOUND`. -/
def env_plain : Env where
  canonical := fun p => some p
  absolute := sample_absolute
  proximate := String.intercalate "/"
  git_repository_open_ext := fun _ => -3
  git_ignore_path_is_ignored := fun _ _ => (0, 0)

/-- An environment with a repository that ignores `./b`. -/
def env_repo : Env where
  canonical := fun p => some p
  absolute := sample_absolute
  proximate := String.intercalate "/"
  git_repository_open_ext := fun _ => 0
  git_ignore_path_is_ignored := fun _ p => if p = [".", "b"] then (0, 1) else (0, 0)

/-- An environment with a repository whose ignore query fails on `./d/e`. -/
def env_flaky : Env where
  canonical := fun p => some p
  absolute := sample_absolute
  proximate := String.intercalate "/"
  git_repository_open_ext := fun _ => 0
  git_ignore_path_is_ignored := fun _ p => if p = [".", "d", "e"] then (-1, 0) else (0, 0)

/-! ## Unfolding the loop -/

theorem walk_nil (env : Env) (options : Options) (pred : FilePredicate) :
    walk env options pred [] = ⟨[], [], none⟩ := by
  rw [walk]

theorem walk_symlink (env : Env) (options : Options) (pred : FilePredicate)
    (x : Path × Node) (q : Queue) (hs : is_symlink x.2 = true) :
    walk env options pred (x :: q) = (walk env options pred q).after x (emit env options x) := by
  obtain ⟨p, n⟩ := x
  rw [walk]
  simp only [emit]
  simp at hs
  simp [hs]

theorem walk_other (env : Env) (options : Options) (pred : FilePredicate)
    (x : Path × Node) (q : Queue) (hs : is_symlink x.2 = false) (hd : is_directory x.2 = false) :
    walk env options pred (x :: q) = (walk env options pred q).after x (emit env options x) := by
  obtain ⟨p, n⟩ := x
  rw [walk]
  simp only [emit]
  simp at hs hd
  simp [hs, hd]

theorem walk_dir_error (env : Env) (options : Options) (pred : FilePredicate)
    (x : Path × Node) (q : Queue) (e : Exception)
    (hs : is_symlink x.2 = false) (hd : is_directory x.2 = true)
    (hp : push_entries pred x.1 (directory_iterator x.2) q = .error e) :
    walk env options pred (x :: q) = ⟨[x], emit env options x, some e⟩ := by
  obtain ⟨p, n⟩ := x
  rw [walk]
  simp only [emit]
  simp at hs hd hp
  simp only [hs, hd, Bool.false_eq_true, ↓reduceDIte, ↓reduceIte]
  split
  · rename_i e2 h2
    simp
    rw [hp] at h2
    injection h2 with h2
    exact h2.symm
  · rename_i q2 h2
    rw [hp] at h2
    cases h2

theorem walk_dir_ok (env : Env) (options : Options) (pred : FilePredicate)
    (x : Path × Node) (q q' : Queue)
    (hs : is_symlink x.2 = false) (hd : is_directory x.2 = true)
    (hp : push_entries pred x.1 (directory_iterator x.2) q = .ok q') :
    walk env options pred (x :: q) = (walk env options pred q').after x (emit env options x) := by
  obtain ⟨p, n⟩ := x
  rw [walk]
  simp only [emit]
  simp at hs hd hp
  simp only [hs, hd, Bool.false_eq_true, ↓reduceDIte, ↓reduceIte]
  split
  · rename_i e2 h2
    rw [hp] at h2
    cases h2
  · rename_i q2 h2
    rw [hp] at h2
    injection h2 with h2
    subst h2
    simp

/-! ## The `for` loop -/

theorem admitted_nil (pred : FilePredicate) (next : Path) : admitted pred next [] = [] := rfl

theorem admitted_cons (pred : FilePredicate) (next : Path) (e : String × Node)
    (es : List (String × Node)) :
    admitted pred next (e :: es) =
      (if admits pred (next ++ [e.1]) then [(next ++ [e.1], e.2)] else []) ++
        admitted pred next es := by
  unfold admitted
  by_cases h : admits pred (next ++ [e.1]) = true <;> simp [List.filter_cons, h]

theorem push_entries_ok (pred : FilePredicate) (next : Path) (es : List (String × Node)) :
    ∀ (q q' : Queue), push_entries pred next es q = .ok q' → q' = q ++ admitted pred next es := by
  induction es with
  | nil => intro q q' h; simp [push_entries] at h; simp [admitted_nil, h]
  | cons e es ih =>
    obtain ⟨name, child⟩ := e
    intro q q' h
    simp only [push_entries] at h
    rw [admitted_cons]
    split at h
    · cases h
    · rename_i hp
      have := ih _ _ h
      simp [admits, hp, this]
    · rename_i hp
      have := ih _ _ h
      simp [admits, hp, this]

theorem push_entries_total (pred : FilePredicate) (hpred : never_fails pred) (next : Path)
    (es : List (String × Node)) :
    ∀ (q : Queue), push_entries pred next es q = .ok (q ++ admitted pred next es) := by
  induction es with
  | nil => intro q; simp [push_entries, admitted_nil]
  | cons e es ih =>
    obtain ⟨name, child⟩ := e
    intro q
    obtain ⟨b, hb⟩ := hpred (next ++ [name])
    simp only [push_entries, hb, admitted_cons, admits]
    cases b <;> simp [ih]

theorem push_entries_error (pred : FilePredicate) (next : Path) (es : List (String × Node)) :
    ∀ (q : Queue) (e : Exception), push_entries pred next es q = .error e →
      ∃ es1 name c es2, es = es1 ++ (name, c) :: es2 ∧ pred (next ++ [name]) = .error e ∧
        ∀ x ∈ es1, ∃ b, pred (next ++ [x.1]) = .ok b := by
  induction es with
  | nil => intro q e h; simp [push_entries] at h
  | cons x es ih =>
    obtain ⟨name, child⟩ := x
    intro q e h
    simp only [push_entries] at h
    split at h
    · rename_i e2 hp
      injection h with h
      subst h
      exact ⟨[], name, child, es, rfl, hp, by simp⟩
    · rename_i hp
      obtain ⟨es1, n2, c2, es2, h1, h2, h3⟩ := ih _ _ h
      refine ⟨(name, child) :: es1, n2, c2, es2, by simp [h1], h2, ?_⟩
      intro x hx
      rcases List.mem_cons.mp hx with hx | hx
      · subst hx; exact ⟨true, hp⟩
      · exact h3 x hx
    · rename_i hp
      obtain ⟨es1, n2, c2, es2, h1, h2, h3⟩ := ih _ _ h
      refine ⟨(name, child) :: es1, n2, c2, es2, by simp [h1], h2, ?_⟩
      intro x hx
      rcases List.mem_cons.mp hx with hx | hx
      · subst hx; exact ⟨false, hp⟩
      · exact h3 x hx

theorem directory_iterator_other (n : Node) (hs : is_symlink n = false)
    (hd : is_directory n = false) : directory_iterator n = [] := by
  cases n with
  | file => rfl
  | symlink t => simp [is_symlink] at hs
  | dir es => simp [is_directory] at hd

/-! ## The `while` loop -/

theorem walk_stdout (env : Env) (options : Options) (pred : FilePredicate) (q : Queue) :
    (walk env options pred q).stdout =
      (walk env options pred q).dequeued.flatMap (emit env options) := by
  induction q using walk.induct env options pred with
  | case1 => simp [walk_nil]
  | case2 p n q hs ih =>
    rw [walk_symlink env options pred (p, n) q hs]
    simp [Outcome.after, ih]
  | case3 p n q hs hd e hp =>
    rw [walk_dir_error env options pred (p, n) q e (by simpa using hs) hd hp]
    simp
  | case4 p n q hs hd q' hp ih =>
    rw [walk_dir_ok env options pred (p, n) q q' (by simpa using hs) hd hp]
    simp [Outcome.after, ih]
  | case5 p n q hs hd ih =>
    rw [walk_other env options pred (p, n) q (by simpa using hs) (by simpa using hd)]
    simp [Outcome.after, ih]

/-- One iteration of the loop when the predicate returns on every path. -/
theorem walk_step (env : Env) (options : Options) (pred : FilePredicate)
    (hpred : never_fails pred) (x : Path × Node) (q : Queue) :
    walk env options pred (x :: q) =
      (walk env options pred (q ++ children pred x)).after x (emit env options x) := by
  by_cases hs : is_symlink x.2 = true
  · rw [walk_symlink env options pred x q hs]
    simp [children, hs]
  · have hs : is_symlink x.2 = false := by simpa using hs
    by_cases hd : is_directory x.2 = true
    · rw [walk_dir_ok env options pred x q _ hs hd (push_entries_total pred hpred _ _ _)]
      simp [children, hs, hd]
    · have hd : is_directory x.2 = false := by simpa using hd
      rw [walk_other env options pred x q hs hd]
      simp [children, hs, hd]

theorem walk_exception_none (env : Env) (options : Options) (pred : FilePredicate)
    (hpred : never_fails pred) (q : Queue) :
    (walk env options pred q).exception = none := by
  induction q using walk.induct env options pred with
  | case1 => simp [walk_nil]
  | case2 p n q hs ih =>
    rw [walk_symlink env options pred (p, n) q hs]
    simp [Outcome.after, ih]
  | case3 p n q hs hd e hp =>
    rw [push_entries_total pred hpred] at hp
    cases hp
  | case4 p n q hs hd q' hp ih =>
    rw [walk_dir_ok env options pred (p, n) q q' (by simpa using hs) hd hp]
    simp [Outcome.after, ih]
  | case5 p n q hs hd ih =>
    rw [walk_other env options pred (p, n) q (by simpa using hs) (by simpa using hd)]
    simp [Outcome.after, ih]

/-! ## Level order -/

theorem walk_dequeued_append (env : Env) (options : Options) (pred : FilePredicate)
    (hpred : never_fails pred) (cur : Queue) :
    ∀ nxt : Queue, (walk env options pred (cur ++ nxt)).dequeued =
      cur ++ (walk env options pred (nxt ++ cur.flatMap (children pred))).dequeued := by
  induction cur with
  | nil => intro nxt; simp
  | cons x cur ih =>
    intro nxt
    rw [List.cons_append, walk_step env options pred hpred]
    simp only [Outcome.after]
    rw [List.append_assoc, ih]
    simp

theorem walk_dequeued_level (env : Env) (options : Options) (pred : FilePredicate)
    (hpred : never_fails pred) (k : Nat) :
    ∀ q : Queue, (walk env options pred q).dequeued =
      (List.range k).flatMap (fun i => level pred i q) ++
        (walk env options pred (level pred k q)).dequeued := by
  induction k with
  | zero => intro q; simp [level]
  | succ k ih =>
    intro q
    have h := walk_dequeued_append env options pred hpred q []
    simp only [List.append_nil, List.nil_append] at h
    rw [h, ih (q.flatMap (children pred)), List.range_succ_eq_map]
    simp [level, List.flatMap_map, Function.comp_def]

theorem entries_size_eq (es : List (String × Node)) :
    (Node.dir es).size = 1 + entries_size es := by
  induction es with
  | nil => simp [Node.size, entries_size]
  | cons e es ih => obtain ⟨s, c⟩ := e; simp [Node.size, entries_size, ih]; omega

theorem size_pos (n : Node) : 0 < n.size := by
  cases n with
  | file => simp [Node.size]
  | symlink t => cases t <;> simp [Node.size]
  | dir es => rw [entries_size_eq]; omega

theorem weight_append (a b : Queue) : weight (a ++ b) = weight a + weight b := by
  induction a with
  | nil => simp [weight]
  | cons x a ih => obtain ⟨p, n⟩ := x; simp [weight, ih]; omega

theorem weight_admitted (pred : FilePredicate) (next : Path) (es : List (String × Node)) :
    weight (admitted pred next es) ≤ entries_size es := by
  induction es with
  | nil => simp [admitted_nil, weight]
  | cons e es ih =>
    rw [admitted_cons, weight_append]
    by_cases h : admits pred (next ++ [e.1]) = true
    · simp [h, weight, entries_size]; omega
    · simp [h, weight, entries_size]; omega

theorem weight_children (pred : FilePredicate) (x : Path × Node) :
    weight (children pred x) < x.2.size := by
  obtain ⟨p, n⟩ := x
  cases n with
  | file => simp [children, is_symlink, is_directory, weight, Node.size]
  | symlink t => simp [children, is_symlink, weight]; exact size_pos _
  | dir es =>
    simp only [children, is_symlink, is_directory, directory_iterator]
    have := weight_admitted pred p es
    rw [entries_size_eq]
    simp
    omega

theorem weight_flatMap_children (pred : FilePredicate) (q : Queue) :
    weight (q.flatMap (children pred)) + q.length ≤ weight q := by
  induction q with
  | nil => simp [weight]
  | cons x q ih =>
    have := weight_children pred x
    obtain ⟨p, n⟩ := x
    simp only [List.flatMap_cons, weight_append, weight, List.length_cons]
    simp only at this
    omega

theorem level_nil (pred : FilePredicate) (k : Nat) : level pred k [] = [] := by
  induction k with
  | zero => rfl
  | succ k ih => simp [level, ih]

theorem weight_pos_of_ne_nil (q : Queue) (h : q ≠ []) : 0 < weight q := by
  cases q with
  | nil => exact absurd rfl h
  | cons x q => obtain ⟨p, n⟩ := x; have := size_pos n; simp [weight]; omega

theorem weight_level (pred : FilePredicate) (k : Nat) :
    ∀ q : Queue, level pred k q ≠ [] → weight (level pred k q) + k ≤ weight q := by
  induction k with
  | zero => intro q _; simp [level]
  | succ k ih =>
    intro q h
    simp only [level] at h ⊢
    have h1 := ih _ h
    have h2 := weight_flatMap_children pred q
    have h3 : q ≠ [] := by
      intro hq
      subst hq
      simp [level_nil] at h
    have h4 : 0 < q.length := List.length_pos.mpr h3
    omega

theorem level_eq_nil (pred : FilePredicate) (k : Nat) (q : Queue) (hk : weight q ≤ k) :
    level pred k q = [] := by
  by_contra h
  have h1 := weight_level pred k q h
  have h2 := weight_pos_of_ne_nil _ h
  omega

/-- With a predicate that returns on every path, the loop dequeues the root and
then the levels below it, one after the other. -/
theorem walk_dequeued_root (env : Env) (options : Options) (pred : FilePredicate)
    (hpred : never_fails pred) (root : Path) (tree : Node) :
    (walk env options pred [(root, tree)]).dequeued = (root, tree) :: level_order pred root tree := by
  rw [walk_dequeued_level env options pred hpred (tree.size + 1)]
  rw [level_eq_nil pred (tree.size + 1) _ (by simp [weight]), walk_nil, List.range_succ_eq_map]
  simp [level, level_order, List.flatMap_map, Function.comp_def]

theorem children_path (pred : FilePredicate) (x y : Path × Node) (h : y ∈ children pred x) :
    ∃ name, y.1 = x.1 ++ [name] ∧ admits pred y.1 = true ∧
      is_symlink x.2 = false ∧ (name, y.2) ∈ directory_iterator x.2 := by
  unfold children at h
  by_cases hs : is_symlink x.2 = true
  · simp [hs] at h
  · by_cases hd : is_directory x.2 = true
    · simp only [hs, hd, Bool.false_eq_true, ↓reduceIte, admitted, List.mem_map,
        List.mem_filter] at h
      obtain ⟨e, ⟨he, ha⟩, rfl⟩ := h
      exact ⟨e.1, rfl, ha, by simpa using hs, he⟩
    · simp [hs, hd] at h

theorem level_path (pred : FilePredicate) (root : Path) (k : Nat) :
    ∀ (q : Queue) (d : Nat), (∀ x ∈ q, root <+: x.1 ∧ x.1.length = d) →
      ∀ x ∈ level pred k q, root <+: x.1 ∧ x.1.length = d + k := by
  induction k with
  | zero => intro q d hq x hx; simpa [level] using hq x hx
  | succ k ih =>
    intro q d hq x hx
    simp only [level] at hx
    have := ih (q.flatMap (children pred)) (d + 1) ?_ x hx
    · obtain ⟨h1, h2⟩ := this
      exact ⟨h1, by omega⟩
    · intro y hy
      obtain ⟨z, hz, hyz⟩ := List.mem_flatMap.mp hy
      obtain ⟨name, hn, -⟩ := children_path pred z y hyz
      obtain ⟨h1, h2⟩ := hq z hz
      rw [hn]
      exact ⟨h1.trans (List.prefix_append _ _), by simp [h2]⟩

theorem level_order_path (pred : FilePredicate) (root : Path) (tree : Node)
    (x : Path × Node) (hx : x ∈ level_order pred root tree) :
    root <+: x.1 ∧ root.length < x.1.length := by
  obtain ⟨k, -, hk⟩ := List.mem_flatMap.mp hx
  have := level_path pred root (k + 1) [(root, tree)] root.length (by simp) x hk
  exact ⟨this.1, by omega⟩

/-! ## The traversal with a predicate that returns on every path -/

theorem admits_of_ok_true (pred : FilePredicate) (p : Path) (h : pred p = .ok true) :
    admits pred p = true := by
  simp [admits, h]

theorem admits_of_ok_false (pred : FilePredicate) (p : Path) (h : pred p = .ok false) :
    admits pred p = false := by
  simp [admits, h]

theorem admits_of_error (pred : FilePredicate) (p : Path) (e : Exception)
    (h : pred p = .error e) : admits pred p = false := by
  simp [admits, h]

theorem admits_iff (pred : FilePredicate) (p : Path) :
    admits pred p = true ↔ pred p = .ok true := by
  unfold admits
  split
  · rename_i h; simp [h]
  · rename_i h
    constructor
    · intro h2; cases h2
    · intro h2; exact absurd h2 h

theorem emit_root (env : Env) (options : Options) (tree : Node) :
    emit env options (options.directory, tree) = [] := by
  simp [emit]

theorem traverse_dequeued (env : Env) (options : Options) (pred : FilePredicate)
    (hpred : never_fails pred) (tree : Node) :
    (traverse env options pred tree).dequeued =
      if admits pred options.directory then
        (options.directory, tree) :: level_order pred options.directory tree
      else [] := by
  unfold traverse
  obtain ⟨b, hb⟩ := hpred options.directory
  cases b with
  | false => simp [hb, admits_of_ok_false pred _ hb]
  | true =>
    simp only [hb, admits_of_ok_true pred _ hb, ↓reduceIte]
    exact walk_dequeued_root env options pred hpred _ _

theorem traverse_stdout_dequeued (env : Env) (options : Options) (pred : FilePredicate)
    (tree : Node) :
    (traverse env options pred tree).stdout =
      (traverse env options pred tree).dequeued.flatMap (emit env options) := by
  unfold traverse
  split
  · simp
  · simp
  · exact walk_stdout env options pred _

theorem traverse_stdout (env : Env) (options : Options) (pred : FilePredicate)
    (hpred : never_fails pred) (tree : Node) :
    (traverse env options pred tree).stdout =
      if admits pred options.directory then
        (level_order pred options.directory tree).flatMap
          (fun x => print_path env x.1 x.2 options)
      else [] := by
  rw [traverse_stdout_dequeued, traverse_dequeued env options pred hpred]
  by_cases h : admits pred options.directory = true
  · simp only [h, ↓reduceIte, List.flatMap_cons, emit_root, List.nil_append]
    apply List.flatMap_congr
    intro x hx
    have := (level_order_path pred options.directory tree x hx).2
    have hne : x.1 ≠ options.directory := by
      intro heq
      rw [heq] at this
      omega
    simp [emit, hne]
  · simp [h]

theorem print_path_path (env : Env) (options : Options) (p : Path) (n : Node) (l : Line)
    (h : l ∈ print_path env p n options) : l.path = p := by
  unfold print_path at h
  split at h
  · simp at h
  · simp only at h
    split at h <;> simp at h <;> simp [h]

theorem print_path_sublist (env : Env) (options : Options) (q : Queue) :
    List.Sublist ((q.flatMap (fun x => print_path env x.1 x.2 options)).map Line.path)
      (q.map Prod.fst) := by
  induction q with
  | nil => simp
  | cons x q ih =>
    simp only [List.flatMap_cons, List.map_append, List.map_cons]
    have h1 : List.Sublist ((print_path env x.1 x.2 options).map Line.path) [x.1] := by
      unfold print_path
      split
      · simp
      · simp only
        split <;> simp
    exact List.Sublist.append h1 ih

theorem level_order_sorted (pred : FilePredicate) (root : Path) (tree : Node) :
    (level_order pred root tree).Pairwise (fun a b => a.1.length ≤ b.1.length) := by
  unfold level_order
  rw [List.pairwise_flatMap]
  constructor
  · intro k _
    apply List.pairwise_of_forall_mem_list
    intro a ha b hb
    have h1 := level_path pred root (k + 1) [(root, tree)] root.length (by simp) a ha
    have h2 := level_path pred root (k + 1) [(root, tree)] root.length (by simp) b hb
    omega
  · apply (List.pairwise_lt_range tree.size).imp
    intro i j hij a ha b hb
    have h1 := level_path pred root (i + 1) [(root, tree)] root.length (by simp) a ha
    have h2 := level_path pred root (j + 1) [(root, tree)] root.length (by simp) b hb
    omega

theorem traverse_paths_sublist (env : Env) (options : Options) (pred : FilePredicate)
    (hpred : never_fails pred) (tree : Node) :
    List.Sublist ((traverse env options pred tree).stdout.map Line.path)
      ((level_order pred options.directory tree).map Prod.fst) := by
  rw [traverse_stdout env options pred hpred]
  split
  · exact print_path_sublist env options _
  · simp

theorem traverse_paths_below (env : Env) (options : Options) (pred : FilePredicate)
    (hpred : never_fails pred) (tree : Node) (P : Path)
    (h : P ∈ (traverse env options pred tree).stdout.map Line.path) :
    options.directory <+: P ∧ options.directory.length < P.length := by
  have h1 := (traverse_paths_sublist env options pred hpred tree).subset h
  obtain ⟨x, hx, rfl⟩ := List.mem_map.mp h1
  exact level_order_path pred options.directory tree x hx

theorem traverse_sorted (env : Env) (options : Options) (pred : FilePredicate)
    (hpred : never_fails pred) (tree : Node) :
    ((traverse env options pred tree).stdout.map Line.path).Pairwise
      (fun a b => a.length ≤ b.length) := by
  apply List.Pairwise.sublist (traverse_paths_sublist env options pred hpred tree)
  rw [List.pairwise_map]
  exact level_order_sorted pred options.directory tree

/-- In a list sorted by length, an element that is a proper initial segment of
another one stands before it. -/
theorem before_of_sorted (out : List Path)
    (hs : out.Pairwise (fun a b => a.length ≤ b.length))
    (l1 l2 : List Path) (P A : Path) (ho : out = l1 ++ P :: l2) (hA : A ∈ out)
    (hp : A <+: P) (hne : A ≠ P) : A ∈ l1 ∧ A ∉ P :: l2 := by
  have hlt : A.length < P.length := by
    rcases Nat.lt_or_ge A.length P.length with h | h
    · exact h
    · exact absurd (List.IsPrefix.eq_of_length_le hp h) hne
  subst ho
  rw [List.pairwise_append] at hs
  obtain ⟨-, h2, -⟩ := hs
  rw [List.pairwise_cons] at h2
  have hnot : A ∉ P :: l2 := by
    intro hm
    rcases List.mem_cons.mp hm with h | h
    · exact hne h
    · have := h2.1 A h
      omega
  refine ⟨?_, hnot⟩
  rcases List.mem_append.mp hA with h | h
  · exact h
  · exact absurd h hnot

/-! ## Invariants of the entries the loop dequeues -/

theorem children_of_dir (pred : FilePredicate) (x : Path × Node)
    (hs : is_symlink x.2 = false) (hd : is_directory x.2 = true) :
    children pred x = admitted pred x.1 (directory_iterator x.2) := by
  simp [children, hs, hd]

/-- A property that holds of the frontier and passes from an entry to the
admitted entries of its listing holds of every entry the loop dequeues. -/
theorem walk_dequeued_invariant (env : Env) (options : Options) (pred : FilePredicate)
    (I : Path × Node → Prop) (hstep : ∀ x y, I x → y ∈ children pred x → I y) (q : Queue) :
    (∀ x ∈ q, I x) → ∀ x ∈ (walk env options pred q).dequeued, I x := by
  induction q using walk.induct env options pred with
  | case1 => intro _ x hx; simp [walk_nil] at hx
  | case2 p n q hs ih =>
    intro hq x hx
    rw [walk_symlink env options pred (p, n) q hs] at hx
    simp only [Outcome.after, List.mem_cons] at hx
    rcases hx with rfl | hx
    · exact hq _ (List.mem_cons_self _ _)
    · exact ih (fun y hy => hq y (List.mem_cons_of_mem _ hy)) x hx
  | case3 p n q hs hd e hp =>
    intro hq x hx
    rw [walk_dir_error env options pred (p, n) q e (by simpa using hs) hd hp] at hx
    simp only [List.mem_singleton] at hx
    subst hx
    exact hq _ (List.mem_cons_self _ _)
  | case4 p n q hs hd q' hp ih =>
    intro hq x hx
    rw [walk_dir_ok env options pred (p, n) q q' (by simpa using hs) hd hp] at hx
    simp only [Outcome.after, List.mem_cons] at hx
    rcases hx with rfl | hx
    · exact hq _ (List.mem_cons_self _ _)
    · refine ih ?_ x hx
      intro y hy
      rw [push_entries_ok pred p _ q q' hp] at hy
      rcases List.mem_append.mp hy with hy | hy
      · exact hq y (List.mem_cons_of_mem _ hy)
      · refine hstep (p, n) y (hq _ (List.mem_cons_self _ _)) ?_
        rw [children_of_dir pred (p, n) (by simpa using hs) hd]
        exact hy
  | case5 p n q hs hd ih =>
    intro hq x hx
    rw [walk_other env options pred (p, n) q (by simpa using hs) (by simpa using hd)] at hx
    simp only [Outcome.after, List.mem_cons] at hx
    rcases hx with rfl | hx
    · exact hq _ (List.mem_cons_self _ _)
    · exact ih (fun y hy => hq y (List.mem_cons_of_mem _ hy)) x hx

theorem traverse_dequeued_invariant (env : Env) (options : Options) (pred : FilePredicate)
    (tree : Node) (I : Path × Node → Prop)
    (hroot : pred options.directory = .ok true → I (options.directory, tree))
    (hstep : ∀ x y, I x → y ∈ children pred x → I y) :
    ∀ x ∈ (traverse env options pred tree).dequeued, I x := by
  unfold traverse
  split
  · intro x hx; simp at hx
  · intro x hx; simp at hx
  · rename_i h
    apply walk_dequeued_invariant env options pred I hstep
    intro x hx
    simp only [List.mem_singleton] at hx
    subst hx
    exact hroot h

/-- Every line written is the line of a dequeued entry other than the root. -/
theorem mem_stdout (env : Env) (options : Options) (pred : FilePredicate) (tree : Node)
    (l : Line) (h : l ∈ (traverse env options pred tree).stdout) :
    ∃ x ∈ (traverse env options pred tree).dequeued,
      x.1 = l.path ∧ x.1 ≠ options.directory ∧ l ∈ print_path env x.1 x.2 options := by
  rw [traverse_stdout_dequeued] at h
  obtain ⟨x, hx, hl⟩ := List.mem_flatMap.mp h
  unfold emit at hl
  split at hl
  · rename_i hne
    exact ⟨x, hx, (print_path_path env options _ _ _ hl).symm, hne, hl⟩
  · simp at hl

/-! ### Every dequeued path is admitted, with all its ancestors below the root -/

theorem admitted_chain_root (pred : FilePredicate) (root : Path) (tree : Node)
    (h : pred root = .ok true) : admitted_chain pred root (root, tree) := by
  refine ⟨List.prefix_refl _, ?_⟩
  intro P h1 h2
  have : P = root := List.IsPrefix.eq_of_length_le h2 h1.length_le
  rw [this]
  exact admits_of_ok_true pred root h

theorem admitted_chain_step (pred : FilePredicate) (root : Path) (x y : Path × Node)
    (hx : admitted_chain pred root x) (hy : y ∈ children pred x) :
    admitted_chain pred root y := by
  obtain ⟨name, hn, ha, -⟩ := children_path pred x y hy
  refine ⟨?_, ?_⟩
  · rw [hn]; exact hx.1.trans (List.prefix_append _ _)
  · intro P h1 h2
    rw [hn, List.prefix_concat_iff] at h2
    rcases h2 with h2 | h2
    · rw [h2, ← hn]; exact ha
    · exact hx.2 P h1 h2

theorem traverse_admitted_chain (env : Env) (options : Options) (pred : FilePredicate)
    (tree : Node) :
    ∀ x ∈ (traverse env options pred tree).dequeued,
      admitted_chain pred options.directory x :=
  traverse_dequeued_invariant env options pred tree _
    (admitted_chain_root pred options.directory tree)
    (admitted_chain_step pred options.directory)

/-! ### Every dequeued entry is the node its path resolves to -/

theorem distinct_names_dir (es : List (String × Node)) :
    (Node.dir es).distinct_names ↔
      (es.map Prod.fst).Nodup ∧ ∀ e ∈ es, e.2.distinct_names := by
  induction es with
  | nil => simp [Node.distinct_names]
  | cons e es ih =>
    obtain ⟨name, c⟩ := e
    simp only [Node.distinct_names, ih, List.map_cons, List.nodup_cons, List.mem_cons,
      forall_eq_or_imp]
    tauto

theorem lookup_of_mem (es : List (String × Node)) (name : String) (c : Node)
    (hn : (es.map Prod.fst).Nodup) (hm : (name, c) ∈ es) : es.lookup name = some c := by
  induction es with
  | nil => simp at hm
  | cons e es ih =>
    obtain ⟨n2, c2⟩ := e
    simp only [List.map_cons, List.nodup_cons] at hn
    rcases List.mem_cons.mp hm with h | h
    · injection h with h1 h2
      subst h1 h2
      simp [List.lookup_cons]
    · have hne : name ≠ n2 := by
        intro heq
        subst heq
        exact hn.1 (List.mem_map.mpr ⟨(name, c), h, rfl⟩)
      have hb : (name == n2) = false := by simpa using hne
      simp only [List.lookup_cons, hb]
      exact ih hn.2 h

theorem resolve_append (r1 : List String) :
    ∀ (n : Node) (r2 : List String),
      resolve n (r1 ++ r2) = (resolve n r1).bind (fun m => resolve m r2) := by
  induction r1 with
  | nil => intro n r2; simp [resolve]
  | cons a r1 ih =>
    intro n r2
    simp only [List.cons_append, resolve]
    split
    · exact ih _ _
    · rfl

theorem located_root (root : Path) (tree : Node) (h : tree.distinct_names) :
    located root tree (root, tree) := by
  refine ⟨[], by simp, rfl, h, ?_⟩
  intro r1 r2 h1 h2
  have : r2 = [] := by
    have := congrArg List.length h1
    simp at this
    exact List.length_eq_zero.mp (by omega)
  exact absurd this h2

theorem located_step (pred : FilePredicate) (root : Path) (tree : Node) (x y : Path × Node)
    (hx : located root tree x) (hy : y ∈ children pred x) : located root tree y := by
  obtain ⟨name, hn, -, hs, hm⟩ := children_path pred x y hy
  obtain ⟨rel, h1, h2, h3, h4⟩ := hx
  obtain ⟨xp, xn⟩ := x
  obtain ⟨yp, yn⟩ := y
  simp only at hn hs hm h1 h2 h3
  have hdir : ∃ es, xn = Node.dir es := by
    cases xn with
    | file => simp [directory_iterator] at hm
    | symlink t => simp [is_symlink] at hs
    | dir es => exact ⟨es, rfl⟩
  obtain ⟨es, rfl⟩ := hdir
  simp only [directory_iterator] at hm
  rw [distinct_names_dir] at h3
  have hlook := lookup_of_mem es name yn h3.1 hm
  refine ⟨rel ++ [name], by simp [hn, h1], ?_, h3.2 _ hm, ?_⟩
  · rw [resolve_append, h2]
    simp [resolve, directory_iterator, hlook]
  · intro r1 r2 hr hne
    rcases List.eq_nil_or_concat r2 with h | ⟨r2', a, h⟩
    · exact absurd h hne
    · subst h
      rw [List.concat_eq_append, ← List.append_assoc] at hr
      have hr' := List.append_inj' hr rfl
      by_cases h0 : r2' = []
      · subst h0
        refine ⟨Node.dir es, ?_, rfl⟩
        rw [← h2, hr'.1]
        simp
      · exact h4 r1 r2' hr'.1 h0

theorem traverse_located (env : Env) (options : Options) (pred : FilePredicate)
    (tree : Node) (h : tree.distinct_names) :
    ∀ x ∈ (traverse env options pred tree).dequeued, located options.directory tree x :=
  traverse_dequeued_invariant env options pred tree _
    (fun _ => located_root options.directory tree h)
    (located_step pred options.directory tree)

theorem is_directory_at_located (root : Path) (tree : Node) (x : Path × Node)
    (h : located root tree x) : is_directory_at root tree x.1 = is_directory x.2 := by
  obtain ⟨rel, h1, h2, -⟩ := h
  simp [is_directory_at, h1, h2]

/-! ## No path is dequeued twice -/

theorem children_distinct_names (pred : FilePredicate) (x y : Path × Node)
    (hx : x.2.distinct_names) (hy : y ∈ children pred x) : y.2.distinct_names := by
  obtain ⟨name, -, -, hs, hm⟩ := children_path pred x y hy
  obtain ⟨xp, xn⟩ := x
  cases xn with
  | file => simp [directory_iterator] at hm
  | symlink t => simp [is_symlink] at hs
  | dir es =>
    simp only [directory_iterator] at hm
    exact ((distinct_names_dir es).mp hx).2 _ hm

theorem children_pairwise (pred : FilePredicate) (x : Path × Node) (hx : x.2.distinct_names) :
    (children pred x).Pairwise (fun a b => a.1 ≠ b.1) := by
  obtain ⟨xp, xn⟩ := x
  cases xn with
  | file => simp [children, is_symlink, is_directory]
  | symlink t => simp [children, is_symlink]
  | dir es =>
    simp only [children, is_symlink, is_directory, directory_iterator, admitted,
      Bool.false_eq_true, ↓reduceIte]
    rw [List.pairwise_map]
    have h1 : es.Pairwise (fun a b => a.1 ≠ b.1) := by
      have := ((distinct_names_dir es).mp hx).1
      rw [List.Nodup, List.pairwise_map] at this
      exact this
    apply List.Pairwise.sublist (List.filter_sublist _)
    apply h1.imp
    intro a b hab heq
    apply hab
    have := List.append_inj' heq rfl
    simpa using this.2

theorem flatMap_children_pairwise (pred : FilePredicate) (q : Queue)
    (h1 : q.Pairwise (fun a b => a.1 ≠ b.1)) (h2 : ∀ x ∈ q, x.2.distinct_names) :
    (q.flatMap (children pred)).Pairwise (fun a b => a.1 ≠ b.1) := by
  rw [List.pairwise_flatMap]
  refine ⟨fun x hx => children_pairwise pred x (h2 x hx), ?_⟩
  apply h1.imp
  intro a b hab y hy z hz heq
  obtain ⟨n1, hn1, -⟩ := children_path pred a y hy
  obtain ⟨n2, hn2, -⟩ := children_path pred b z hz
  rw [hn1, hn2] at heq
  exact hab (List.append_inj' heq rfl).1

theorem level_pairwise (pred : FilePredicate) (k : Nat) :
    ∀ q : Queue, q.Pairwise (fun a b => a.1 ≠ b.1) → (∀ x ∈ q, x.2.distinct_names) →
      (level pred k q).Pairwise (fun a b => a.1 ≠ b.1) := by
  induction k with
  | zero => intro q h1 _; simpa [level] using h1
  | succ k ih =>
    intro q h1 h2
    simp only [level]
    apply ih _ (flatMap_children_pairwise pred q h1 h2)
    intro y hy
    obtain ⟨x, hx, hyx⟩ := List.mem_flatMap.mp hy
    exact children_distinct_names pred x y (h2 x hx) hyx

theorem level_order_nodup (pred : FilePredicate) (root : Path) (tree : Node)
    (h : tree.distinct_names) :
    ((level_order pred root tree).map Prod.fst).Nodup := by
  rw [List.Nodup, List.pairwise_map]
  unfold level_order
  rw [List.pairwise_flatMap]
  constructor
  · intro k _
    exact level_pairwise pred (k + 1) [(root, tree)] (by simp) (by simpa using h)
  · apply (List.pairwise_lt_range tree.size).imp
    intro i j hij a ha b hb heq
    have h1 := level_path pred root (i + 1) [(root, tree)] root.length (by simp) a ha
    have h2 := level_path pred root (j + 1) [(root, tree)] root.length (by simp) b hb
    rw [heq] at h1
    omega

theorem traverse_nodup (env : Env) (options : Options) (pred : FilePredicate)
    (hpred : never_fails pred) (tree : Node) (h : tree.distinct_names) :
    ((traverse env options pred tree).stdout.map Line.path).Nodup :=
  List.Nodup.sublist (traverse_paths_sublist env options pred hpred tree)
    (level_order_nodup pred options.directory tree h)

/-! ## The loop under a change of the options or of the predicate -/

theorem print_path_congr (env : Env) (o1 o2 : Options) (p : Path) (n : Node)
    (hf : o1.files_only = o2.files_only) :
    print_path env p n o1 = print_path env p n o2 := by
  simp [print_path, hf]

theorem emit_congr (env : Env) (o1 o2 : Options) (x : Path × Node)
    (hd : o1.directory = o2.directory) (hf : o1.files_only = o2.files_only) :
    emit env o1 x = emit env o2 x := by
  simp [emit, hd, print_path_congr env o1 o2 _ _ hf]

/-- What the loop dequeues, and the exception that ends it, depend neither on the
options nor on the renderings. -/
theorem walk_dequeued_congr (e1 e2 : Env) (o1 o2 : Options) (pred : FilePredicate) (q : Queue) :
    (walk e1 o1 pred q).dequeued = (walk e2 o2 pred q).dequeued ∧
      (walk e1 o1 pred q).exception = (walk e2 o2 pred q).exception := by
  induction q using walk.induct e1 o1 pred with
  | case1 => simp [walk_nil]
  | case2 p n q hs ih =>
    rw [walk_symlink e1 o1 pred (p, n) q hs, walk_symlink e2 o2 pred (p, n) q hs]
    simpa [Outcome.after] using ih
  | case3 p n q hs hd e hp =>
    rw [walk_dir_error e1 o1 pred (p, n) q e (by simpa using hs) hd hp,
      walk_dir_error e2 o2 pred (p, n) q e (by simpa using hs) hd hp]
    simp
  | case4 p n q hs hd q' hp ih =>
    rw [walk_dir_ok e1 o1 pred (p, n) q q' (by simpa using hs) hd hp,
      walk_dir_ok e2 o2 pred (p, n) q q' (by simpa using hs) hd hp]
    simpa [Outcome.after] using ih
  | case5 p n q hs hd ih =>
    rw [walk_other e1 o1 pred (p, n) q (by simpa using hs) (by simpa using hd),
      walk_other e2 o2 pred (p, n) q (by simpa using hs) (by simpa using hd)]
    simpa [Outcome.after] using ih

theorem traverse_dequeued_congr (e1 e2 : Env) (o1 o2 : Options) (pred : FilePredicate)
    (tree : Node) (hd : o1.directory = o2.directory) :
    (traverse e1 o1 pred tree).dequeued = (traverse e2 o2 pred tree).dequeued ∧
      (traverse e1 o1 pred tree).exception = (traverse e2 o2 pred tree).exception := by
  unfold traverse
  rw [hd]
  split
  · simp
  · simp
  · exact walk_dequeued_congr e1 e2 o1 o2 pred _

theorem traverse_congr (env : Env) (o1 o2 : Options) (pred : FilePredicate) (tree : Node)
    (hd : o1.directory = o2.directory) (hf : o1.files_only = o2.files_only) :
    traverse env o1 pred tree = traverse env o2 pred tree := by
  have h1 := traverse_dequeued_congr env env o1 o2 pred tree hd
  have h2 : (traverse env o1 pred tree).stdout = (traverse env o2 pred tree).stdout := by
    rw [traverse_stdout_dequeued, traverse_stdout_dequeued, h1.1]
    apply List.flatMap_congr
    intro x _
    exact emit_congr env o1 o2 x hd hf
  cases ha : traverse env o1 pred tree
  cases hb : traverse env o2 pred tree
  rw [ha, hb] at h1 h2
  simp only at h1 h2
  simp [h1.1, h1.2, h2]

/-! ## A predicate that throws -/

theorem push_entries_first_error (pred : FilePredicate) (next : Path) (e : Exception)
    (name : String) (c : Node) (es2 : List (String × Node)) (es1 : List (String × Node)) :
    (∀ x ∈ es1, ∃ b, pred (next ++ [x.1]) = .ok b) → pred (next ++ [name]) = .error e →
      ∀ q : Queue, push_entries pred next (es1 ++ (name, c) :: es2) q = .error e := by
  induction es1 with
  | nil => intro _ he q; simp [push_entries, he]
  | cons x es1 ih =>
    obtain ⟨n1, c1⟩ := x
    intro hok he q
    obtain ⟨b, hb⟩ := hok (n1, c1) (List.mem_cons_self _ _)
    have hrest := ih (fun y hy => hok y (List.mem_cons_of_mem _ hy)) he
    simp only [List.cons_append, push_entries, hb]
    cases b <;> simp [hrest]

theorem walk_dequeued_cons (env : Env) (options : Options) (pred : FilePredicate)
    (x : Path × Node) (q : Queue) :
    ∃ d, (walk env options pred (x :: q)).dequeued = x :: d := by
  by_cases hs : is_symlink x.2 = true
  · rw [walk_symlink env options pred x q hs]
    exact ⟨_, rfl⟩
  · have hs : is_symlink x.2 = false := by simpa using hs
    by_cases hd : is_directory x.2 = true
    · cases hp : push_entries pred x.1 (directory_iterator x.2) q with
      | error e =>
        rw [walk_dir_error env options pred x q e hs hd hp]
        exact ⟨_, rfl⟩
      | ok q' =>
        rw [walk_dir_ok env options pred x q q' hs hd hp]
        exact ⟨_, rfl⟩
    · have hd : is_directory x.2 = false := by simpa using hd
      rw [walk_other env options pred x q hs hd]
      exact ⟨_, rfl⟩

/-- When the predicate throws on an entry of the listing of a dequeued directory,
having returned on the entries before it, the loop ends with that exception and
the directory is the last entry dequeued. -/
theorem walk_failure (env : Env) (options : Options) (pred : FilePredicate)
    (x : Path × Node) (e : Exception) (es1 es2 : List (String × Node)) (name : String) (c : Node)
    (hs : is_symlink x.2 = false)
    (hl : directory_iterator x.2 = es1 ++ (name, c) :: es2)
    (hok : ∀ y ∈ es1, ∃ b, pred (x.1 ++ [y.1]) = .ok b)
    (he : pred (x.1 ++ [name]) = .error e) (q : Queue) :
    x ∈ (walk env options pred q).dequeued →
      (walk env options pred q).exception = some e ∧
        ∃ pre, (walk env options pred q).dequeued = pre ++ [x] := by
  have hpush : ∀ q', push_entries pred x.1 (directory_iterator x.2) q' = .error e := by
    intro q'
    rw [hl]
    exact push_entries_first_error pred x.1 e name c es2 es1 hok he q'
  induction q using walk.induct env options pred with
  | case1 => intro hx; simp [walk_nil] at hx
  | case2 p n q hs2 ih =>
    rw [walk_symlink env options pred (p, n) q hs2]
    simp only [Outcome.after, List.mem_cons]
    intro hx
    rcases hx with rfl | hx
    · simp only at hs; rw [hs] at hs2; cases hs2
    · obtain ⟨h1, pre, h2⟩ := ih hx
      exact ⟨h1, (p, n) :: pre, by simp [h2]⟩
  | case3 p n q hs2 hd e2 hp =>
    rw [walk_dir_error env options pred (p, n) q e2 (by simpa using hs2) hd hp]
    simp only [List.mem_singleton]
    intro hx
    subst hx
    rw [hpush q] at hp
    injection hp with hp
    subst hp
    exact ⟨rfl, [], rfl⟩
  | case4 p n q hs2 hd q' hp ih =>
    rw [walk_dir_ok env options pred (p, n) q q' (by simpa using hs2) hd hp]
    simp only [Outcome.after, List.mem_cons]
    intro hx
    rcases hx with rfl | hx
    · rw [hpush q] at hp; cases hp
    · obtain ⟨h1, pre, h2⟩ := ih hx
      exact ⟨h1, (p, n) :: pre, by simp [h2]⟩
  | case5 p n q hs2 hd ih =>
    rw [walk_other env options pred (p, n) q (by simpa using hs2) (by simpa using hd)]
    simp only [Outcome.after, List.mem_cons]
    intro hx
    rcases hx with rfl | hx
    · exfalso
      have := directory_iterator_other n (by simpa using hs2) (by simpa using hd)
      simp only at hl
      rw [this] at hl
      simp at hl
    · obtain ⟨h1, pre, h2⟩ := ih hx
      exact ⟨h1, (p, n) :: pre, by simp [h2]⟩

theorem push_entries_agree (pred pred' : FilePredicate)
    (hagree : ∀ p b, pred p = .ok b → pred' p = .ok b) (next : Path)
    (es : List (String × Node)) :
    ∀ q q' : Queue, push_entries pred next es q = .ok q' →
      push_entries pred' next es q = .ok q' := by
  induction es with
  | nil => intro q q' h; simpa [push_entries] using h
  | cons x es ih =>
    obtain ⟨name, c⟩ := x
    intro q q' h
    simp only [push_entries] at h ⊢
    split at h
    · cases h
    · rename_i hp
      rw [hagree _ _ hp]
      exact ih _ _ h
    · rename_i hp
      rw [hagree _ _ hp]
      exact ih _ _ h

/-- What the loop dequeues with a predicate is an initial segment of what it
dequeues with a predicate that returns the same values and throws less. -/
theorem walk_dequeued_agree (env : Env) (options : Options) (pred pred' : FilePredicate)
    (hagree : ∀ p b, pred p = .ok b → pred' p = .ok b) (q : Queue) :
    (walk env options pred q).dequeued <+: (walk env options pred' q).dequeued := by
  induction q using walk.induct env options pred with
  | case1 => simp [walk_nil]
  | case2 p n q hs ih =>
    rw [walk_symlink env options pred (p, n) q hs, walk_symlink env options pred' (p, n) q hs]
    simpa [Outcome.after, List.cons_prefix_cons] using ih
  | case3 p n q hs hd e hp =>
    rw [walk_dir_error env options pred (p, n) q e (by simpa using hs) hd hp]
    obtain ⟨d, hd2⟩ := walk_dequeued_cons env options pred' (p, n) q
    rw [hd2]
    simp [List.cons_prefix_cons]
  | case4 p n q hs hd q' hp ih =>
    rw [walk_dir_ok env options pred (p, n) q q' (by simpa using hs) hd hp,
      walk_dir_ok env options pred' (p, n) q q' (by simpa using hs) hd
        (push_entries_agree pred pred' hagree _ _ _ _ hp)]
    simpa [Outcome.after, List.cons_prefix_cons] using ih
  | case5 p n q hs hd ih =>
    rw [walk_other env options pred (p, n) q (by simpa using hs) (by simpa using hd),
      walk_other env options pred' (p, n) q (by simpa using hs) (by simpa using hd)]
    simpa [Outcome.after, List.cons_prefix_cons] using ih

theorem flatMap_isPrefix {α β : Type} (f : α → List β) (l1 l2 : List α) (h : l1 <+: l2) :
    l1.flatMap f <+: l2.flatMap f := by
  obtain ⟨t, rfl⟩ := h
  rw [List.flatMap_append]
  exact List.prefix_append _ _

theorem traverse_stdout_agree (env : Env) (options : Options) (pred pred' : FilePredicate)
    (hagree : ∀ p b, pred p = .ok b → pred' p = .ok b) (tree : Node) :
    (traverse env options pred tree).stdout <+: (traverse env options pred' tree).stdout := by
  rw [traverse_stdout_dequeued, traverse_stdout_dequeued]
  apply flatMap_isPrefix
  unfold traverse
  cases h : pred options.directory with
  | error e => simp
  | ok b =>
    rw [hagree _ _ h]
    cases b with
    | false => simp
    | true => exact walk_dequeued_agree env options pred pred' hagree _

theorem traverse_failure (env : Env) (options : Options) (pred : FilePredicate) (tree : Node)
    (x : Path × Node) (e : Exception) (es1 es2 : List (String × Node)) (name : String) (c : Node)
    (hs : is_symlink x.2 = false)
    (hl : directory_iterator x.2 = es1 ++ (name, c) :: es2)
    (hok : ∀ y ∈ es1, ∃ b, pred (x.1 ++ [y.1]) = .ok b)
    (he : pred (x.1 ++ [name]) = .error e)
    (hx : x ∈ (traverse env options pred tree).dequeued) :
    (traverse env options pred tree).exception = some e ∧
      ∃ pre, (traverse env options pred tree).dequeued = pre ++ [x] := by
  unfold traverse at hx ⊢
  split at hx
  · simp at hx
  · simp at hx
  · exact walk_failure env options pred x e es1 es2 name c hs hl hok he _ hx

/-! ## The predicate backed by libgit2 -/

/-- C7, as amended: on a path whose canonical form exists and for which the
backend query succeeds, the call operator of `GitIgnoreFilter` returns `true`
if and only if the backend reports that the path does not match an ignore rule
(`res == 0`), and `false` if and only if it reports a match. -/
theorem filter_call_iff_not_ignored (env : Env) (self : GitIgnoreFilter) (file p : Path)
    (hc : env.canonical file = some p)
    (herr : (env.git_ignore_path_is_ignored self.repo p).1 = 0) :
    (self.call env file = .ok true ↔ (env.git_ignore_path_is_ignored self.repo p).2 = 0) ∧
      (self.call env file = .ok false ↔ (env.git_ignore_path_is_ignored self.repo p).2 ≠ 0) := by
  simp [GitIgnoreFilter.call, hc, herr]

/-- An instance: `./a.txt`, which the sample repository does not ignore. -/
theorem filter_call_iff_not_ignored_witness :
    env_repo.canonical [".", "a.txt"] = some [".", "a.txt"] ∧
      (env_repo.git_ignore_path_is_ignored ["."] [".", "a.txt"]).1 = 0 ∧
      ((GitIgnoreFilter.mk ["."]).call env_repo [".", "a.txt"] = .ok true ↔
        (env_repo.git_ignore_path_is_ignored ["."] [".", "a.txt"]).2 = 0) ∧
      ((GitIgnoreFilter.mk ["."]).call env_repo [".", "a.txt"] = .ok false ↔
        (env_repo.git_ignore_path_is_ignored ["."] [".", "a.txt"]).2 ≠ 0) :=
  ⟨rfl, by decide,
    filter_call_iff_not_ignored env_repo ⟨["."]⟩ [".", "a.txt"] [".", "a.txt"] rfl (by decide)⟩

/-- C7, as stated, fails: for `./b` the backend query succeeds and reports a
match (`res = 1`), and the call operator returns `false`, so it is not the case
that it returns `true` exactly when the backend reports a match. -/
theorem filter_call_on_ignored_path :
    env_repo.canonical [".", "b"] = some [".", "b"] ∧
      env_repo.git_ignore_path_is_ignored ["."] [".", "b"] = (0, 1) ∧
      (GitIgnoreFilter.mk ["."]).call env_repo [".", "b"] = .ok false ∧
      ¬ ((GitIgnoreFilter.mk ["."]).call env_repo [".", "b"] = .ok true ↔
        (env_repo.git_ignore_path_is_ignored ["."] [".", "b"]).2 ≠ 0) := by
  have hcall : (GitIgnoreFilter.mk ["."]).call env_repo [".", "b"] = .ok false := by
    simp [GitIgnoreFilter.call, env_repo]
  refine ⟨rfl, by decide, hcall, ?_⟩
  intro h
  have h1 : (env_repo.git_ignore_path_is_ignored ["."] [".", "b"]).2 ≠ 0 := by decide
  have h2 := h.mpr h1
  rw [hcall] at h2
  cases h2

/-! ## The printer -/

theorem print_path_eq_nil_iff (env : Env) (options : Options) (p : Path) (n : Node) :
    print_path env p n options = [] ↔ (options.files_only = true ∧ is_directory n = true) := by
  unfold print_path
  constructor
  · intro h
    split at h
    · rename_i hg
      simpa using hg
    · simp only at h
      split at h <;> simp at h
  · rintro ⟨h1, h2⟩
    simp [h1, h2]

/-- C8: every line `print_path` writes for a path is the absolute rendering when
the size of that rendering is at most the size of the proximate one, a tie
included, and the proximate rendering when that one is strictly shorter. It
writes exactly one line, unless `files_only` is set and the path is a directory,
in which case it writes none. -/
theorem print_path_shorter (env : Env) (path : Path) (node : Node) (options : Options) :
    (∀ l ∈ print_path env path node options,
        ((env.absolute path).utf8ByteSize ≤ (env.proximate path).utf8ByteSize →
          l = ⟨path, env.absolute path⟩) ∧
        ((env.absolute path).utf8ByteSize = (env.proximate path).utf8ByteSize →
          l = ⟨path, env.absolute path⟩) ∧
        ((env.proximate path).utf8ByteSize < (env.absolute path).utf8ByteSize →
          l = ⟨path, env.proximate path⟩)) ∧
      (print_path env path node options = [] ↔
        (options.files_only = true ∧ is_directory node = true)) ∧
      (¬ (options.files_only = true ∧ is_directory node = true) →
        (print_path env path node options).length = 1) := by
  refine ⟨?_, print_path_eq_nil_iff env options path node, ?_⟩
  · intro l hl
    unfold print_path at hl
    split at hl
    · cases hl
    · simp only at hl
      split at hl
      · rename_i hle
        simp only [List.mem_singleton] at hl
        exact ⟨fun _ => hl, fun _ => hl, fun hlt => absurd hle (by omega)⟩
      · rename_i hle
        simp only [List.mem_singleton] at hl
        exact ⟨fun h => absurd h hle, fun h => absurd (Nat.le_of_eq h) hle, fun _ => hl⟩
  · intro h
    have hg : (options.files_only && is_directory node) = false := by
      cases hf : options.files_only <;> cases hd : is_directory node <;> simp_all
    unfold print_path
    simp only [hg, Bool.false_eq_true, ↓reduceIte]
    split <;> rfl

/-- An instance: `./a.txt` seen from `/w`, whose proximate rendering is the shorter one. -/
theorem print_path_shorter_witness :
    (⟨[".", "a.txt"], "./a.txt"⟩ : Line) ∈
        print_path env_plain [".", "a.txt"] .file ⟨["."], true, false⟩ ∧
      (env_plain.proximate [".", "a.txt"]).utf8ByteSize <
        (env_plain.absolute [".", "a.txt"]).utf8ByteSize ∧
      (⟨[".", "a.txt"], "./a.txt"⟩ : Line) =
        ⟨[".", "a.txt"], env_plain.proximate [".", "a.txt"]⟩ :=
  have h : (⟨[".", "a.txt"], "./a.txt"⟩ : Line) ∈
      print_path env_plain [".", "a.txt"] .file ⟨["."], true, false⟩ := by decide
  ⟨h, by decide,
    ((print_path_shorter env_plain [".", "a.txt"] .file ⟨["."], true, false⟩).1 _ h).2.2
      (by decide)⟩

/-! ## Building the filter -/

theorem make_filter_of_ctor_error (env : Env) (options : Options)
    (hset : options.use_git_ignore = true)
    (hfail : ∃ e, (GitIgnoreFilter.ctor env options.directory).2 = .error e) :
    (make_filter env options).2 = none := by
  obtain ⟨e, he⟩ := hfail
  simp only [make_filter, hset, ↓reduceIte]
  split
  · rename_i h
    rw [h] at he
    cases he
  · rfl

theorem never_fails_always_true : never_fails always_true := fun _ => ⟨true, rfl⟩

/-- C6: when `use_git_ignore` is set and the constructor of `GitIgnoreFilter`
throws, whatever it throws, `list_files` ends without an exception and its
outcome is that of the run on the same tree with `use_git_ignore` unset. -/
theorem list_files_filter_unavailable (env : Env) (options : Options) (tree : Node)
    (hset : options.use_git_ignore = true)
    (hfail : ∃ e, (GitIgnoreFilter.ctor env options.directory).2 = .error e) :
    (list_files env options tree).exception = none ∧
      (list_files env options tree).stdout =
        (list_files env { options with use_git_ignore := false } tree).stdout ∧
      (list_files env options tree).toOutcome =
        (list_files env { options with use_git_ignore := false } tree).toOutcome := by
  have h1 : active_predicate env options = always_true := by
    simp [active_predicate, make_filter_of_ctor_error env options hset hfail]
  have h2 : active_predicate env { options with use_git_ignore := false } = always_true := by
    simp [active_predicate, make_filter]
  have h3 : (list_files env options tree).toOutcome =
      (list_files env { options with use_git_ignore := false } tree).toOutcome := by
    simp only [list_files, h1, h2]
    exact traverse_congr env _ _ always_true tree rfl rfl
  refine ⟨?_, by rw [h3], h3⟩
  simp only [list_files, h1]
  unfold traverse
  simp only [always_true]
  exact walk_exception_none env options always_true never_fails_always_true _

/-- An instance: the sample tree where no repository can be opened. -/
theorem list_files_filter_unavailable_witness :
    (Options.mk ["."] false true).use_git_ignore = true ∧
      (∃ e, (GitIgnoreFilter.ctor env_plain (Options.mk ["."] false true).directory).2 =
        .error e) ∧
      (list_files env_plain ⟨["."], false, true⟩ sample_tree).exception = none ∧
      (list_files env_plain ⟨["."], false, true⟩ sample_tree).stdout =
        (list_files env_plain ⟨["."], false, false⟩ sample_tree).stdout :=
  have h : ∃ e, (GitIgnoreFilter.ctor env_plain (Options.mk ["."] false true).directory).2 =
      .error e :=
    ⟨.runtime_error "Could not open git repository", by simp [GitIgnoreFilter.ctor, env_plain]⟩
  ⟨rfl, h, (list_files_filter_unavailable env_plain ⟨["."], false, true⟩ sample_tree rfl h).1,
    (list_files_filter_unavailable env_plain ⟨["."], false, true⟩ sample_tree rfl h).2.1⟩

/-- C10, at the failing input: with `use_git_ignore` set and a directory that
exists but lies in no repository, the run calls `git_libgit2_init` once and
`git_libgit2_shutdown` never; the constructor threw, so no destructor runs. On
the same tree inside a repository the calls are paired: one initialisation, one
release of the handle, one shutdown. -/
theorem list_files_init_without_shutdown :
    ((list_files env_plain ⟨["."], false, true⟩ sample_tree).calls =
        [.git_libgit2_init, .git_repository_open_ext (-3)] ∧
      (list_files env_plain ⟨["."], false, true⟩ sample_tree).calls.count
        .git_libgit2_init = 1 ∧
      (list_files env_plain ⟨["."], false, true⟩ sample_tree).calls.count
        .git_libgit2_shutdown = 0) ∧
    (list_files env_repo ⟨["."], false, true⟩ sample_tree).calls =
      [.git_libgit2_init, .git_repository_open_ext 0, .git_repository_free,
        .git_libgit2_shutdown] := by
  have h : (list_files env_plain ⟨["."], false, true⟩ sample_tree).calls =
      [.git_libgit2_init, .git_repository_open_ext (-3)] := by
    simp [list_files, make_filter, GitIgnoreFilter.ctor, env_plain]
  rw [h]
  refine ⟨⟨rfl, by decide, by decide⟩, ?_⟩
  simp [list_files, make_filter, GitIgnoreFilter.ctor, GitIgnoreFilter.dtor, env_repo]

/-! ## Siblings -/

theorem level_succ (pred : FilePredicate) (k : Nat) :
    ∀ q : Queue, level pred (k + 1) q = (level pred k q).flatMap (children pred) := by
  induction k with
  | zero => intro q; simp [level]
  | succ k ih =>
    intro q
    have := ih (q.flatMap (children pred))
    simp only [level] at this ⊢
    exact this

theorem infix_flatMap_of_mem {α β : Type} (f : α → List β) (l : List α) (x : α)
    (h : x ∈ l) : f x <:+: l.flatMap f := by
  obtain ⟨a, b, rfl⟩ := List.append_of_mem h
  exact ⟨a.flatMap f, b.flatMap f, by simp⟩

theorem flatMap_isInfix {α β : Type} (f : α → List β) (l1 l2 : List α) (h : l1 <:+: l2) :
    l1.flatMap f <:+: l2.flatMap f := by
  obtain ⟨a, b, rfl⟩ := h
  exact ⟨a.flatMap f, b.flatMap f, by simp⟩

theorem level_infix_level_order (pred : FilePredicate) (root : Path) (tree : Node) (j : Nat) :
    level pred (j + 1) [(root, tree)] <:+: level_order pred root tree := by
  by_cases h : j < tree.size
  · exact infix_flatMap_of_mem (fun k => level pred (k + 1) [(root, tree)])
      (List.range tree.size) j (List.mem_range.mpr h)
  · rw [level_eq_nil pred (j + 1) _ (by simp [weight]; omega)]
    exact ⟨[], level_order pred root tree, by simp⟩

/-- The admitted entries of a dequeued entry form a block of the level order, in
listing order. -/
theorem children_infix_level_order (pred : FilePredicate) (root : Path) (tree : Node)
    (x : Path × Node) (hx : x ∈ (root, tree) :: level_order pred root tree) :
    children pred x <:+: level_order pred root tree := by
  have key : ∀ k, x ∈ level pred k [(root, tree)] →
      children pred x <:+: level_order pred root tree := by
    intro k hk
    have h1 := infix_flatMap_of_mem (children pred) _ x hk
    rw [← level_succ] at h1
    exact h1.trans (level_infix_level_order pred root tree k)
  rcases List.mem_cons.mp hx with h | h
  · exact key 0 (by simp [level, h])
  · obtain ⟨k, -, hk⟩ := List.mem_flatMap.mp h
    exact key (k + 1) hk

/-! ## Breadth-first order -/

theorem list_files_stdout (env : Env) (options : Options) (tree : Node) :
    (list_files env options tree).stdout =
      (traverse env options (active_predicate env options) tree).stdout := rfl

theorem list_files_dequeued (env : Env) (options : Options) (tree : Node) :
    (list_files env options tree).dequeued =
      (traverse env options (active_predicate env options) tree).dequeued := rfl

theorem list_files_exception (env : Env) (options : Options) (tree : Node) :
    (list_files env options tree).exception =
      (traverse env options (active_predicate env options) tree).exception := rfl

/-- C1: with a predicate that returns on every path, the paths `list_files`
emits lie strictly below the root; their depths below the root are
non-decreasing along the output; every emitted path stands strictly after each
emitted proper ancestor of it; and the output is the level-order enumeration of
the tree (level 1, then level 2, ..., each level listing, for the entries of the
level above in order, their admitted entries in listing order) passed through
`print_path`; in particular the lines of the admitted entries of a dequeued
directory form one block of the output, in the order of the directory listing. -/
theorem list_files_breadth_first (env : Env) (options : Options) (tree : Node)
    (hpred : never_fails (active_predicate env options)) :
    (∀ P ∈ (list_files env options tree).stdout.map Line.path,
        options.directory <+: P ∧ options.directory.length < P.length) ∧
      ((list_files env options tree).stdout.map Line.path).Pairwise
        (fun a b => depth options.directory a ≤ depth options.directory b) ∧
      (∀ l1 l2 P A, (list_files env options tree).stdout.map Line.path = l1 ++ P :: l2 →
        A ∈ (list_files env options tree).stdout.map Line.path → A <+: P → A ≠ P →
          A ∈ l1 ∧ A ∉ P :: l2) ∧
      ((list_files env options tree).stdout =
        if admits (active_predicate env options) options.directory then
          (level_order (active_predicate env options) options.directory tree).flatMap
            (fun x => print_path env x.1 x.2 options)
        else []) ∧
      (∀ x ∈ (list_files env options tree).dequeued,
        (children (active_predicate env options) x).flatMap
            (fun y => print_path env y.1 y.2 options) <:+:
          (list_files env options tree).stdout) := by
  rw [list_files_stdout, list_files_dequeued]
  have hsorted := traverse_sorted env options _ hpred tree
  refine ⟨?_, ?_, ?_, traverse_stdout env options _ hpred tree, ?_⟩
  rotate_left 3
  · intro x hx
    rw [traverse_dequeued env options _ hpred] at hx
    rw [traverse_stdout env options _ hpred]
    split at hx
    · rename_i hadm
      simp only [hadm, ↓reduceIte]
      exact flatMap_isInfix _ _ _ (children_infix_level_order _ _ tree x hx)
    · simp at hx
  · intro P hP
    exact traverse_paths_below env options _ hpred tree P hP
  · apply hsorted.imp
    intro a b hab
    unfold depth
    omega
  · intro l1 l2 P A ho hA hp hne
    exact before_of_sorted _ hsorted l1 l2 P A ho hA hp hne

theorem never_fails_env_repo :
    never_fails (active_predicate env_repo ⟨["."], false, true⟩) := by
  intro p
  by_cases h : p = [".", "b"]
  · exact ⟨false, by simp [active_predicate, make_filter, GitIgnoreFilter.ctor,
      GitIgnoreFilter.call, env_repo, h]⟩
  · exact ⟨true, by simp [active_predicate, make_filter, GitIgnoreFilter.ctor,
      GitIgnoreFilter.call, env_repo, h]⟩

/-- An instance: the sample tree in the sample repository. -/
theorem list_files_breadth_first_witness :
    never_fails (active_predicate env_repo ⟨["."], false, true⟩) ∧
      ((list_files env_repo ⟨["."], false, true⟩ sample_tree).stdout.map Line.path).Pairwise
        (fun a b => depth ["."] a ≤ depth ["."] b) ∧
      (list_files env_repo ⟨["."], false, true⟩ sample_tree).stdout =
        if admits (active_predicate env_repo ⟨["."], false, true⟩) ["."] then
          (level_order (active_predicate env_repo ⟨["."], false, true⟩) ["."]
            sample_tree).flatMap
            (fun x => print_path env_repo x.1 x.2 ⟨["."], false, true⟩)
        else [] :=
  ⟨never_fails_env_repo,
    (list_files_breadth_first env_repo ⟨["."], false, true⟩ sample_tree
      never_fails_env_repo).2.1,
    (list_files_breadth_first env_repo ⟨["."], false, true⟩ sample_tree
      never_fails_env_repo).2.2.2.1⟩

/-! ## Uniqueness -/

theorem sample_tree_distinct_names : sample_tree.distinct_names := by
  simp [sample_tree, Node.distinct_names]

/-- C2: on a tree whose directories have entries with distinct names, and with a
predicate that returns on every path, no path occurs twice in the output of
`list_files`, and no path is dequeued twice. -/
theorem list_files_no_duplicates (env : Env) (options : Options) (tree : Node)
    (hnames : tree.distinct_names)
    (hpred : never_fails (active_predicate env options)) :
    ((list_files env options tree).stdout.map Line.path).Nodup ∧
      ((list_files env options tree).dequeued.map Prod.fst).Nodup := by
  rw [list_files_stdout, list_files_dequeued]
  refine ⟨traverse_nodup env options _ hpred tree hnames, ?_⟩
  rw [traverse_dequeued env options _ hpred]
  split
  · rw [List.map_cons, List.nodup_cons]
    refine ⟨?_, level_order_nodup _ options.directory tree hnames⟩
    intro hmem
    obtain ⟨x, hx, heq⟩ := List.mem_map.mp hmem
    have := (level_order_path _ options.directory tree x hx).2
    rw [heq] at this
    simp at this
  · simp

/-- An instance: the sample tree in the sample repository. -/
theorem list_files_no_duplicates_witness :
    sample_tree.distinct_names ∧
      never_fails (active_predicate env_repo ⟨["."], false, true⟩) ∧
      ((list_files env_repo ⟨["."], false, true⟩ sample_tree).stdout.map Line.path).Nodup ∧
      ((list_files env_repo ⟨["."], false, true⟩ sample_tree).dequeued.map Prod.fst).Nodup :=
  ⟨sample_tree_distinct_names, never_fails_env_repo,
    list_files_no_duplicates env_repo ⟨["."], false, true⟩ sample_tree
      sample_tree_distinct_names never_fails_env_repo⟩

/-! ## Ignored paths -/

theorem active_predicate_of_filter (env : Env) (options : Options) (g : GitIgnoreFilter)
    (hg : (make_filter env options).2 = some g) :
    active_predicate env options = g.call env := by
  simp [active_predicate, hg]

theorem make_filter_env_repo (f : Bool) :
    (make_filter env_repo ⟨["."], f, true⟩).2 = some ⟨["."]⟩ := by
  simp [make_filter, GitIgnoreFilter.ctor, env_repo]

/-- C3: when the filter was built, for every path `P` at or below the root whose
canonical form the backend reports as matching an ignore rule (the query
succeeds with `res` non-zero), no line of the output of `list_files` is for `P`
or for a path below `P`; when `P` is the root, nothing is written at all. -/
theorem list_files_ignored_excluded (env : Env) (options : Options) (tree : Node)
    (g : GitIgnoreFilter) (hg : (make_filter env options).2 = some g)
    (P c : Path) (hroot : options.directory <+: P)
    (hc : env.canonical P = some c)
    (herr : (env.git_ignore_path_is_ignored g.repo c).1 = 0)
    (hres : (env.git_ignore_path_is_ignored g.repo c).2 ≠ 0) :
    (∀ l ∈ (list_files env options tree).stdout, ¬ P <+: l.path) ∧
      (P = options.directory → (list_files env options tree).stdout = []) := by
  rw [list_files_stdout, active_predicate_of_filter env options g hg]
  have hP : g.call env P = .ok false := by
    simp [GitIgnoreFilter.call, hc, herr, hres]
  refine ⟨?_, ?_⟩
  · intro l hl hpre
    obtain ⟨x, hx, hpath, -, -⟩ := mem_stdout env options _ tree l hl
    have hchain := traverse_admitted_chain env options _ tree x hx
    have := hchain.2 P hroot (hpath ▸ hpre)
    rw [admits_of_ok_false _ _ hP] at this
    cases this
  · intro heq
    subst heq
    simp [traverse, hP]

/-- An instance: the ignored directory `./b` of the sample repository. -/
theorem list_files_ignored_excluded_witness :
    (make_filter env_repo ⟨["."], false, true⟩).2 = some ⟨["."]⟩ ∧
      (Options.mk ["."] false true).directory <+: [".", "b"] ∧
      env_repo.canonical [".", "b"] = some [".", "b"] ∧
      (env_repo.git_ignore_path_is_ignored ["."] [".", "b"]).1 = 0 ∧
      (env_repo.git_ignore_path_is_ignored ["."] [".", "b"]).2 ≠ 0 ∧
      (∀ l ∈ (list_files env_repo ⟨["."], false, true⟩ sample_tree).stdout,
        ¬ [".", "b"] <+: l.path) :=
  ⟨make_filter_env_repo false, ⟨["b"], rfl⟩, rfl, by decide, by decide,
    (list_files_ignored_excluded env_repo ⟨["."], false, true⟩ sample_tree ⟨["."]⟩
      (make_filter_env_repo false) [".", "b"] [".", "b"] ⟨["b"], rfl⟩ rfl
      (by decide) (by decide)).1⟩

/-! ## `files_only` -/

theorem active_predicate_files_only (env : Env) (options : Options) (f : Bool) :
    active_predicate env { options with files_only := f } = active_predicate env options := by
  simp [active_predicate, make_filter, GitIgnoreFilter.ctor]

theorem filter_flatMap {α β : Type} (p : β → Bool) (f : α → List β) (l : List α) :
    (l.flatMap f).filter p = l.flatMap (fun x => (f x).filter p) := by
  induction l with
  | nil => rfl
  | cons x l ih => simp [List.flatMap_cons, List.filter_append, ih]

theorem emit_files_only (env : Env) (options : Options) (tree : Node) (x : Path × Node)
    (hx : located options.directory tree x) :
    emit env { options with files_only := true } x =
      (emit env { options with files_only := false } x).filter
        (fun l => !is_directory_at options.directory tree l.path) := by
  have hdir := is_directory_at_located options.directory tree x hx
  unfold emit
  simp only
  by_cases hne : x.1 = options.directory
  · simp [hne]
  · simp only [ne_eq, hne, not_false_eq_true, ↓reduceIte]
    unfold print_path
    simp only [Bool.true_and, Bool.false_and, Bool.false_eq_true, ↓reduceIte]
    by_cases hle : (env.absolute x.1).utf8ByteSize ≤ (env.proximate x.1).utf8ByteSize
    · simp only [hle, ↓reduceIte, List.filter_cons, List.filter_nil, hdir]
      cases is_directory x.2 <;> simp
    · simp only [hle, ↓reduceIte, List.filter_cons, List.filter_nil, hdir]
      cases is_directory x.2 <;> simp

theorem flatMap_filter {α β : Type} (p : α → Bool) (f : α → List β) (l : List α) :
    (l.filter p).flatMap f = l.flatMap (fun x => if p x then f x else []) := by
  induction l with
  | nil => rfl
  | cons x l ih =>
    by_cases h : p x = true
    · simp [List.filter_cons, h, ih]
    · simp [List.filter_cons, h, ih]

theorem emit_files_only_node (env : Env) (options : Options) (x : Path × Node) :
    emit env { options with files_only := true } x =
      if !is_directory x.2 then emit env { options with files_only := false } x else [] := by
  unfold emit print_path
  by_cases hne : x.1 = options.directory
  · simp [hne]
  · cases hd : is_directory x.2 <;> simp [hne]

/-- C4: both settings of `files_only` make `list_files` dequeue the same
entries, so a suppressed directory is still expanded, and the output with
`files_only` set consists of the lines that the run with `files_only` unset
writes for the dequeued entries that are not directories, in the same order. On
a tree whose directories have entries with distinct names, where a path
determines its entry, this is the output with `files_only` unset without the
lines of the paths that `fs::is_directory` holds of, and no emitted path is one
`fs::is_directory` holds of. -/
theorem list_files_files_only (env : Env) (options : Options) (tree : Node) :
    (list_files env { options with files_only := true } tree).dequeued =
        (list_files env { options with files_only := false } tree).dequeued ∧
      (list_files env { options with files_only := true } tree).stdout =
        ((list_files env { options with files_only := false } tree).dequeued.filter
          (fun x => !is_directory x.2)).flatMap
            (emit env { options with files_only := false }) ∧
      (tree.distinct_names →
        (list_files env { options with files_only := true } tree).stdout =
          (list_files env { options with files_only := false } tree).stdout.filter
            (fun l => !is_directory_at options.directory tree l.path) ∧
        ∀ l ∈ (list_files env { options with files_only := true } tree).stdout,
          is_directory_at options.directory tree l.path = false) := by
  have hdeq := (traverse_dequeued_congr env env { options with files_only := true }
    { options with files_only := false } (active_predicate env options) tree rfl).1
  refine ⟨?_, ?_, ?_⟩
  · rw [list_files_dequeued, list_files_dequeued, active_predicate_files_only,
      active_predicate_files_only]
    exact hdeq
  · rw [list_files_stdout, list_files_dequeued, active_predicate_files_only,
      active_predicate_files_only, traverse_stdout_dequeued, hdeq, flatMap_filter]
    apply List.flatMap_congr
    intro x _
    exact emit_files_only_node env options x
  · intro hnames
    have hmain : (list_files env { options with files_only := true } tree).stdout =
        (list_files env { options with files_only := false } tree).stdout.filter
          (fun l => !is_directory_at options.directory tree l.path) := by
      rw [list_files_stdout, list_files_stdout, active_predicate_files_only,
        active_predicate_files_only, traverse_stdout_dequeued, traverse_stdout_dequeued,
        filter_flatMap, hdeq]
      apply List.flatMap_congr
      intro x hx
      apply emit_files_only
      exact traverse_located env { options with files_only := false } _ tree hnames x hx
    refine ⟨hmain, ?_⟩
    intro l hl
    rw [hmain] at hl
    have := (List.mem_filter.mp hl).2
    simpa using this

/-- An instance: the sample tree without a filter. -/
theorem list_files_files_only_witness :
    sample_tree.distinct_names ∧
      (list_files env_plain ⟨["."], true, false⟩ sample_tree).stdout =
        (list_files env_plain ⟨["."], false, false⟩ sample_tree).stdout.filter
          (fun l => !is_directory_at ["."] sample_tree l.path) ∧
      (list_files env_plain ⟨["."], true, false⟩ sample_tree).dequeued =
        (list_files env_plain ⟨["."], false, false⟩ sample_tree).dequeued :=
  ⟨sample_tree_distinct_names,
    ((list_files_files_only env_plain ⟨["."], false, false⟩ sample_tree).2.2
      sample_tree_distinct_names).1,
    (list_files_files_only env_plain ⟨["."], false, false⟩ sample_tree).1⟩

/-! ## Symbolic links -/

theorem located_unique (root : Path) (tree : Node) (x y : Path × Node)
    (hx : located root tree x) (hy : located root tree y) (h : x.1 = y.1) : x.2 = y.2 := by
  obtain ⟨r1, h1, h2, -⟩ := hx
  obtain ⟨r2, h3, h4, -⟩ := hy
  rw [h1, h3] at h
  have := List.append_cancel_left h
  subst this
  rw [h2] at h4
  injection h4

theorem located_below_symlink (root : Path) (tree : Node) (x y : Path × Node)
    (hx : located root tree x) (hy : located root tree y) (hs : is_symlink x.2 = true)
    (h : x.1 <+: y.1) : y.1 = x.1 := by
  obtain ⟨r1, h1, h2, -⟩ := hx
  obtain ⟨r2, h3, -, -, h4⟩ := hy
  obtain ⟨t, ht⟩ := h
  rw [h1, h3, List.append_assoc] at ht
  have hr := List.append_cancel_left ht
  by_cases h0 : t = []
  · subst h0
    rw [h3, h1, ← hr]
    simp
  · obtain ⟨m, hm1, hm2⟩ := h4 r1 t hr.symm h0
    rw [h2] at hm1
    injection hm1 with hm1
    rw [hm1, hm2] at hs
    cases hs

/-- C5, as amended: on a tree whose directories have entries with distinct names,
for every symbolic link `L` the loop takes from the frontier, under every
setting of the options and whatever the target of `L`: `L` is emitted if and
only if it is not the root and it is not the case that `files_only` is set and
the target of `L` is a directory; no entry below `L` is dequeued and no line is
written for a path below `L`; and the iteration that dequeues `L` leaves the
frontier as it was, so nothing is enqueued through `L`. -/
theorem list_files_symlink (env : Env) (options : Options) (tree : Node)
    (hnames : tree.distinct_names) (L : Path) (n : Node)
    (hL : (L, n) ∈ (list_files env options tree).dequeued) (hs : is_symlink n = true) :
    (L ∈ (list_files env options tree).stdout.map Line.path ↔
        L ≠ options.directory ∧ ¬ (options.files_only = true ∧ is_directory n = true)) ∧
      (∀ y ∈ (list_files env options tree).dequeued, L <+: y.1 → y.1 = L) ∧
      (∀ l ∈ (list_files env options tree).stdout, L <+: l.path → l.path = L) ∧
      (∀ (pred : FilePredicate) (q : Queue),
        walk env options pred ((L, n) :: q) =
          (walk env options pred q).after (L, n) (emit env options (L, n))) := by
  rw [list_files_dequeued] at hL
  rw [list_files_stdout, list_files_dequeued]
  have hloc := traverse_located env options (active_predicate env options) tree hnames
  have hbelow : ∀ y ∈ (traverse env options (active_predicate env options) tree).dequeued,
      L <+: y.1 → y.1 = L := by
    intro y hy hpre
    exact located_below_symlink options.directory tree (L, n) y (hloc _ hL) (hloc y hy) hs hpre
  refine ⟨⟨?_, ?_⟩, hbelow, ?_, ?_⟩
  · intro hmem
    obtain ⟨l, hl, hpath⟩ := List.mem_map.mp hmem
    obtain ⟨x, hx, hx1, hx2, hx3⟩ := mem_stdout env options _ tree l hl
    have hxL : x.1 = L := hx1.trans hpath
    have hnode : x.2 = n :=
      located_unique options.directory tree x (L, n) (hloc x hx) (hloc _ hL) hxL
    refine ⟨hxL ▸ hx2, ?_⟩
    intro hsupp
    rw [← hnode] at hsupp
    rw [(print_path_eq_nil_iff env options x.1 x.2).mpr hsupp] at hx3
    cases hx3
  · rintro ⟨hne, hsupp⟩
    rw [traverse_stdout_dequeued]
    have hnonempty : print_path env L n options ≠ [] := by
      intro h
      exact hsupp ((print_path_eq_nil_iff env options L n).mp h)
    obtain ⟨l, hl⟩ := List.exists_mem_of_ne_nil _ hnonempty
    refine List.mem_map.mpr ⟨l, ?_, print_path_path env options L n l hl⟩
    refine List.mem_flatMap.mpr ⟨(L, n), hL, ?_⟩
    simp only [emit, ne_eq, hne, not_false_eq_true, ↓reduceIte]
    exact hl
  · intro l hl hpre
    obtain ⟨x, hx, hx1, -, -⟩ := mem_stdout env options _ tree l hl
    rw [← hx1] at hpre ⊢
    exact hbelow x hx hpre
  · intro pred q
    exact walk_symlink env options pred (L, n) q hs

theorem sample_dequeued_files_only :
    (list_files env_plain ⟨["."], true, false⟩ sample_tree).dequeued =
      [(["."], sample_tree), ([".", "a.txt"], .file), ([".", "b"], .dir [("c.txt", .file)]),
        ([".", "l"], sample_link), ([".", "m"], .symlink none),
        ([".", "d"], .dir [("e", .file)]), ([".", "b", "c.txt"], .file),
        ([".", "d", "e"], .file)] := by
  simp [list_files, traverse, active_predicate, make_filter, always_true, sample_tree,
    sample_link, walk, push_entries, Outcome.after, is_symlink, is_directory,
    directory_iterator]

theorem sample_stdout_files_only :
    (list_files env_plain ⟨["."], true, false⟩ sample_tree).stdout.map Line.path =
      [[".", "a.txt"], [".", "m"], [".", "b", "c.txt"], [".", "d", "e"]] := by
  simp [list_files, traverse, active_predicate, make_filter, always_true, sample_tree,
    walk, push_entries, Outcome.after, is_symlink, is_directory, directory_iterator,
    print_path, env_plain]
  decide

/-- An instance: the dangling link `./m` of the sample tree, with `files_only` set. -/
theorem list_files_symlink_witness :
    sample_tree.distinct_names ∧
      ([".", "m"], Node.symlink none) ∈
        (list_files env_plain ⟨["."], true, false⟩ sample_tree).dequeued ∧
      is_symlink (Node.symlink none) = true ∧
      ([".", "m"] ∈ (list_files env_plain ⟨["."], true, false⟩ sample_tree).stdout.map
          Line.path ↔
        [".", "m"] ≠ (Options.mk ["."] true false).directory ∧
          ¬ ((Options.mk ["."] true false).files_only = true ∧
            is_directory (Node.symlink none) = true)) :=
  have h : ([".", "m"], Node.symlink none) ∈
      (list_files env_plain ⟨["."], true, false⟩ sample_tree).dequeued := by
    rw [sample_dequeued_files_only]
    simp
  ⟨sample_tree_distinct_names, h, rfl,
    (list_files_symlink env_plain ⟨["."], true, false⟩ sample_tree
      sample_tree_distinct_names [".", "m"] (.symlink none) h rfl).1⟩

/-- C5, as stated, fails. With `files_only` set, the link `./l` to a directory is
taken from the frontier and is not emitted; and a root that is a symbolic link is
taken from the frontier and nothing is emitted. -/
theorem symlink_not_emitted :
    (([".", "l"], sample_link) ∈
        (list_files env_plain ⟨["."], true, false⟩ sample_tree).dequeued ∧
      is_symlink sample_link = true ∧
      [".", "l"] ∉ (list_files env_plain ⟨["."], true, false⟩ sample_tree).stdout.map
        Line.path) ∧
    ((["."], sample_link) ∈
        (list_files env_plain ⟨["."], false, false⟩ sample_link).dequeued ∧
      (list_files env_plain ⟨["."], false, false⟩ sample_link).stdout = []) := by
  refine ⟨⟨?_, rfl, ?_⟩, ?_, ?_⟩
  · rw [sample_dequeued_files_only]
    simp
  · rw [sample_stdout_files_only]
    decide
  · simp [list_files, traverse, active_predicate, make_filter, always_true, sample_link,
      walk, Outcome.after, is_symlink]
  · simp [list_files, traverse, active_predicate, make_filter, always_true, sample_link,
      walk, Outcome.after, is_symlink]

/-! ## A failing query -/

theorem make_filter_env_flaky :
    (make_filter env_flaky ⟨["."], false, true⟩).2 = some ⟨["."]⟩ := by
  simp [make_filter, GitIgnoreFilter.ctor, env_flaky]

/-- C9: when the filter was built and its call throws, `list_files` ends with
that exception. If it throws on the root, nothing is dequeued or written. If it
throws on an entry of the listing of a dequeued directory, having returned on
the entries listed before it, that directory is the last entry dequeued and its
line, if any, the last one written. In all cases the output is an initial
segment of the output of the traversal with any predicate that returns on every
path and agrees with the filter wherever the filter returns, which is in
breadth-first order. -/
theorem list_files_query_failure (env : Env) (options : Options) (tree : Node)
    (g : GitIgnoreFilter) (hg : (make_filter env options).2 = some g) :
    (∀ e, g.call env options.directory = .error e →
        (list_files env options tree).exception = some e ∧
          (list_files env options tree).dequeued = [] ∧
          (list_files env options tree).stdout = []) ∧
      (∀ (x : Path × Node) (e : Exception) (es1 es2 : List (String × Node)) (name : String)
        (c : Node), x ∈ (list_files env options tree).dequeued → is_symlink x.2 = false →
        directory_iterator x.2 = es1 ++ (name, c) :: es2 →
        (∀ y ∈ es1, ∃ b, g.call env (x.1 ++ [y.1]) = .ok b) →
        g.call env (x.1 ++ [name]) = .error e →
          (list_files env options tree).exception = some e ∧
            ∃ pre, (list_files env options tree).dequeued = pre ++ [x] ∧
              (list_files env options tree).stdout =
                pre.flatMap (emit env options) ++ emit env options x) ∧
      (∀ pred' : FilePredicate, never_fails pred' →
        (∀ p b, g.call env p = .ok b → pred' p = .ok b) →
          (list_files env options tree).stdout <+: (traverse env options pred' tree).stdout) := by
  rw [list_files_stdout, list_files_dequeued, list_files_exception,
    active_predicate_of_filter env options g hg]
  refine ⟨?_, ?_, ?_⟩
  · intro e he
    simp [traverse, he]
  · intro x e es1 es2 name c hx hs hl hok he
    obtain ⟨h1, pre, h2⟩ :=
      traverse_failure env options (g.call env) tree x e es1 es2 name c hs hl hok he hx
    refine ⟨h1, pre, h2, ?_⟩
    rw [traverse_stdout_dequeued, h2]
    simp
  · intro pred' _ hagree
    exact traverse_stdout_agree env options (g.call env) pred' hagree tree

/-- An instance: the query that fails on `./d/e` while `./d` is listed. -/
theorem list_files_query_failure_witness :
    (make_filter env_flaky ⟨["."], false, true⟩).2 = some ⟨["."]⟩ ∧
      ([".", "d"], Node.dir [("e", .file)]) ∈
        (list_files env_flaky ⟨["."], false, true⟩ sample_tree).dequeued ∧
      (GitIgnoreFilter.mk ["."]).call env_flaky ([".", "d"] ++ ["e"]) =
        .error (.runtime_error "Gitignore check failed") ∧
      (list_files env_flaky ⟨["."], false, true⟩ sample_tree).exception =
        some (.runtime_error "Gitignore check failed") :=
  have hx : ([".", "d"], Node.dir [("e", .file)]) ∈
      (list_files env_flaky ⟨["."], false, true⟩ sample_tree).dequeued := by
    simp [list_files, traverse, active_predicate, make_filter, GitIgnoreFilter.ctor,
      GitIgnoreFilter.call, env_flaky, sample_tree, walk, push_entries, Outcome.after,
      is_symlink, is_directory, directory_iterator]
  have he : (GitIgnoreFilter.mk ["."]).call env_flaky ([".", "d"] ++ ["e"]) =
      .error (.runtime_error "Gitignore check failed") := by
    simp [GitIgnoreFilter.call, env_flaky]
  ⟨make_filter_env_flaky, hx, he,
    ((list_files_query_failure env_flaky ⟨["."], false, true⟩ sample_tree ⟨["."]⟩
      make_filter_env_flaky).2.1 ([".", "d"], .dir [("e", .file)])
      (.runtime_error "Gitignore check failed") [] [] "e" .file hx rfl rfl
      (by intro y hy; cases hy) he).1⟩

end list_files
